import Mathlib

/-!
# Verification of the nba-milestones pipeline

Shallow embedding of the core logic of `src/src/collect.py` and its local
variant `src/src/NBA Github.py`: name normalization (`_normalize_name`),
identity resolution (`resolve_player_id`), team-affiliation caching
(`get_current_team_abbrev`) and milestone counting (`count_milestones`),
together with the percentage derivation and the FG2M column derivation done
by the main loop.

Python strings are modelled as `List Char`.  The Python regular-expression
and string primitives used by the scripts (`str.strip`, `str.lower`,
`str.replace`, `re.sub` with the patterns `[.,;:()]`, `[​‌‍]`,
`\s+` and `\b(jr|sr|ii|iii|iv|v)\b`, `str.split`, `str.endswith`) are
embedded concretely below.  `str.lower` and the character classes `\s` / `\w`
are embedded on the fragment of Unicode that can reach this code path
(ASCII, Latin-1 Supplement and Latin Extended letters — every character
occurring in the repository's data tables); on that fragment the embedding
agrees with Python.

External collaborators (the `nba_api` roster listing, `CommonPlayerInfo`,
`difflib.get_close_matches`) are parameters of the embedded functions:
the roster is a list argument, the profile lookup and the fuzzy matcher are
function arguments.  `difflib.get_close_matches(norm, keys, n=1, cutoff=0.82)`
is abstracted as `closeMatch : Str → Option Str`; the code relies on the
`difflib` contract that a returned match is one of `keys`.
-/

set_option maxRecDepth 4000

abbrev Str := List Char

/-- Lowercasing table: ASCII `A`-`Z` and the Latin-1 Supplement uppercase
letters, paired with their lowercase forms.  This is the fragment of Python's
`str.lower` relevant to the repository; `str.lower` is the identity on every
other character that appears in its data. -/
def lowerPairs : List (Char × Char) :=
  ("ABCDEFGHIJKLMNOPQRSTUVWXYZÀÁÂÃÄÅÆÇÈÉÊËÌÍÎÏÐÑÒÓÔÕÖØÙÚÛÜÝÞ".toList).zip
    ("abcdefghijklmnopqrstuvwxyzàáâãäåæçèéêëìíîïðñòóôõöøùúûüýþ".toList)

/-- Embedding of Python `str.lower`, character by character. -/
def pyLower (c : Char) : Char := (List.lookup c lowerPairs).getD c

/-- Embedding of the Python whitespace class (`str.strip` / regex `\s`):
ASCII whitespace, the C1 separators, NBSP and the Unicode space separators. -/
def isSpaceChar (c : Char) : Bool :=
  let n := c.toNat
  (9 ≤ n && n ≤ 13) || (28 ≤ n && n ≤ 32) || n == 0x85 || n == 0xA0 ||
    n == 0x1680 || (0x2000 ≤ n && n ≤ 0x200A) || n == 0x2028 || n == 0x2029 ||
    n == 0x202F || n == 0x205F || n == 0x3000

/-- Embedding of the regex word class `\w` on the character fragment used by
this repository: ASCII alphanumerics, underscore, and the Latin-1
Supplement / Latin Extended letters (excluding `×` and `÷`). -/
def isWordChar (c : Char) : Bool :=
  let n := c.toNat
  (48 ≤ n && n ≤ 57) || (65 ≤ n && n ≤ 90) || (97 ≤ n && n ≤ 122) || n == 95 ||
    (0xC0 ≤ n && n ≤ 0x24F && n != 0xD7 && n != 0xF7)

/-- The chained quote replacements of `collect.py` line 78-79:
`„ “ ”` and `"` become a space, `’ ´` become an ASCII apostrophe. -/
def replQuotes (c : Char) : Char :=
  if c == '„' || c == '“' || c == '”' then ' '
  else if c == '’' || c == '´' then '\''
  else if c == '"' then ' '
  else c

/-- The quote replacements of `NBA Github.py` line 65-66: as `replQuotes`,
and additionally `‚` becomes a space. -/
def replQuotesGh (c : Char) : Char :=
  if c == '„' || c == '“' || c == '”' || c == '‚' then ' '
  else if c == '’' || c == '´' then '\''
  else if c == '"' then ' '
  else c

/-- `re.sub(r"[.,;:()]", " ", s)`, character by character. -/
def replPunct (c : Char) : Char :=
  if c == '.' || c == ',' || c == ';' || c == ':' || c == '(' || c == ')' then ' '
  else c

/-- `s.replace("-", " ")`, character by character. -/
def replHyphen (c : Char) : Char := if c == '-' then ' ' else c

/-- The zero-width characters removed by `re.sub(r"[​‌‍]", "", s)`. -/
def isZeroWidth (c : Char) : Bool :=
  c == '​' || c == '‌' || c == '‍'

/-- Worker for `re.sub(r"\s+", " ", s)`: every maximal run of whitespace
becomes a single ASCII space.  The flag records whether we are inside a
whitespace run whose replacement space has already been emitted. -/
def collapseGo : Bool → Str → Str
  | _, [] => []
  | inRun, c :: cs =>
    if isSpaceChar c then
      if inRun then collapseGo true cs else ' ' :: collapseGo true cs
    else c :: collapseGo false cs

/-- `re.sub(r"\s+", " ", s)`. -/
def collapseWS (s : Str) : Str := collapseGo false s

/-- Python `str.strip()`: remove leading and trailing whitespace. -/
def stripList (s : Str) : Str :=
  (s.dropWhile isSpaceChar).rdropWhile isSpaceChar

/-- The alternatives of the suffix pattern `(jr|sr|ii|iii|iv|v)`, in the
order the regex engine tries them. -/
def suffixAlts : List Str :=
  [['j', 'r'], ['s', 'r'], ['i', 'i'], ['i', 'i', 'i'], ['i', 'v'], ['v']]

/-- Trailing word-boundary test `\b`: holds at end of string or before a
non-word character. -/
def boundaryOk : Str → Bool
  | [] => true
  | c :: _ => !isWordChar c

/-- Try the pattern alternatives in order at the head of `l`; the regex
engine backtracks into the next alternative when the trailing `\b` fails.
Returns the length of the first successful match. -/
def tryAlt : List Str → Str → Option Nat
  | [], _ => none
  | a :: rest, l =>
    if a.isPrefixOf l && boundaryOk (l.drop a.length) then some a.length
    else tryAlt rest l

/-- Scanner for `re.sub(r"\b(jr|sr|ii|iii|iv|v)\b", "", s)`.  `prevWord`
records whether the previous character was a word character (false at the
start of the string), so `!prevWord && isWordChar c` is exactly the leading
`\b` at a position where the pattern can match; after a match the scan
resumes at the end of the matched text.  The fuel only serves termination:
each step consumes at least one character, so `fuel = length` is enough and
the fuel-exhausted branch is never taken. -/
def subSuffixGo : Nat → Bool → Str → Str
  | 0, _, l => l
  | _ + 1, _, [] => []
  | fuel + 1, prevWord, c :: cs =>
    if !prevWord && isWordChar c then
      match tryAlt suffixAlts (c :: cs) with
      | some n => subSuffixGo fuel true (List.drop n (c :: cs))
      | none => c :: subSuffixGo fuel true cs
    else c :: subSuffixGo fuel (isWordChar c) cs

/-- `re.sub(r"\b(jr|sr|ii|iii|iv|v)\b", "", s)`. -/
def subSuffixes (s : Str) : Str := subSuffixGo s.length false s

/-- The normalization pipeline shared by both scripts, parameterized by the
quote-replacement map (the only difference between the two copies).
Mirrors the statement order of the Python function. -/
def normalizeWith (qm : Char → Char) (s : Str) : Str :=
  stripList (collapseWS (subSuffixes (collapseWS (List.filter
    (fun c => !isZeroWidth c)
    (List.map replHyphen (List.map replPunct (List.map qm
      (List.map pyLower (stripList s)))))))))

/-- `_normalize_name` of `collect.py` (lines 76-86). -/
def _normalize_name : Str → Str := normalizeWith replQuotes

/-- `_normalize_name` of `NBA Github.py` (lines 59-73). -/
def _normalize_name_gh : Str → Str := normalizeWith replQuotesGh

/-- Python `str.split()` (no separator): split on whitespace runs, dropping
empty fields.  Fuel-driven for termination; `fuel = length` suffices. -/
def pySplitGo : Nat → Str → List Str
  | 0, _ => []
  | fuel + 1, l =>
    match l.dropWhile isSpaceChar with
    | [] => []
    | c :: cs =>
      (c :: cs).takeWhile (fun d => !isSpaceChar d) ::
        pySplitGo fuel ((c :: cs).dropWhile (fun d => !isSpaceChar d))

/-- Python `str.split()`. -/
def pySplit (s : Str) : List Str := pySplitGo s.length s

/-! ## Identity resolution (`resolve_player_id`) -/

/-- One entry of `static_players.get_players()`: the roster collaborator's
canonical player record. -/
structure CanonicalPlayer where
  id : Nat
  full_name : Str
  is_active : Bool
deriving DecidableEq, Repr

/-- Append `p` to the bucket of key `k`, creating the bucket at the end when
the key is new: `dict.setdefault(k, []).append(p)` on an insertion-ordered
dict. -/
def indexInsert (idx : List (Str × List CanonicalPlayer)) (k : Str)
    (p : CanonicalPlayer) : List (Str × List CanonicalPlayer) :=
  match idx with
  | [] => [(k, [p])]
  | (k', l) :: t =>
    if k' = k then (k', l ++ [p]) :: t else (k', l) :: indexInsert t k p

/-- The `_name_index` loop shared by both scripts (each applies its own
`_normalize_name`): normalized full name → list of players sharing it,
insertion order kept. -/
def buildIndexWith (normalize : Str → Str) (players : List CanonicalPlayer) :
    List (Str × List CanonicalPlayer) :=
  players.foldl (fun idx p => indexInsert idx (normalize p.full_name) p) []

/-- The `_name_index` built from `_ALL_PLAYERS` by `collect.py`
(lines 90-93). -/
def buildIndex (players : List CanonicalPlayer) :
    List (Str × List CanonicalPlayer) :=
  buildIndexWith _normalize_name players

/-- `ALIAS_OVERRIDES` of `collect.py` (lines 96-112). -/
def ALIAS_OVERRIDES : List (Str × Str) :=
  [("vj edgecomb".toList, "vj edgecombe".toList),
   ("vj edgecome".toList, "vj edgecombe".toList),
   ("v j edgecombe".toList, "vj edgecombe".toList),
   ("valdez drexel v j edgecombe".toList, "vj edgecombe".toList),
   ("vit krejci".toList, "vít krejčí".toList),
   ("jakob poeltl".toList, "jakob pöltl".toList),
   ("lester quiñones".toList, "lester quinones".toList),
   ("pacome dadiet".toList, "pacôme dadiet".toList),
   ("monte morris".toList, "monté morris".toList),
   ("taze moore".toList, "tazé moore".toList),
   ("isiah crawford".toList, "isaiah crawford".toList),
   ("hood schifino jalen".toList, "jalen hood schifino".toList),
   ("hood-schifino jalen".toList, "jalen hood schifino".toList),
   ("dariq miller whitehead".toList, "dariq whitehead".toList),
   ("dariq miller-whitehead".toList, "dariq whitehead".toList)]

/-- `MANUAL_PLAYER_IDS` (collect.py lines 115-117): empty in the source. -/
def MANUAL_PLAYER_IDS : List (Str × Nat) := []

/-- The tie-break applied whenever a step yields a candidate list:
`active = [c for c in candidates if c.get("is_active")]`;
`pick = active[0] if active else candidates[0]`.  Returns `none` exactly when
the candidate list is empty (the `if candidates:` guard of the source). -/
def pickCandidate (cs : List CanonicalPlayer) : Option CanonicalPlayer :=
  match cs.filter (fun c => c.is_active) with
  | a :: _ => some a
  | [] => cs.head?

/-- The working normalized value after the alias step: `norm =
_normalize_name(name)`, replaced by `_normalize_name(ALIAS_OVERRIDES[norm])`
when `norm` is an alias key. -/
def workingNorm (normalize : Str → Str) (aliasTab : List (Str × Str))
    (name : Str) : Str :=
  let norm := normalize name
  match List.lookup norm aliasTab with
  | some tgt => normalize tgt
  | none => norm

/-- The resolution chain of `collect.py`'s `resolve_player_id` after the
alias step: manual override, exact index match, fuzzy match — this variant
has no surname fallback.  `closeMatch` abstracts
`difflib.get_close_matches(norm, keys, n=1, cutoff=0.82)`; on `some key`,
`key` is an index key by the difflib contract (a non-key would raise
`KeyError` in Python; here it yields the empty bucket and `none`). -/
def resolve_from (manual : List (Str × Nat)) (players : List CanonicalPlayer)
    (closeMatch : Str → Option Str) (name norm : Str) : Option (Nat × Str) :=
  match List.lookup norm manual with
  | some pid => some (pid, name)
  | none =>
    let idx := buildIndex players
    match pickCandidate ((List.lookup norm idx).getD []) with
    | some p => some (p.id, p.full_name)
    | none =>
      match closeMatch norm with
      | some key =>
        match pickCandidate ((List.lookup key idx).getD []) with
        | some p => some (p.id, p.full_name)
        | none => none
      | none => none

/-- `resolve_player_id` of `collect.py` (lines 119-148), with the external
roster, alias/manual tables and fuzzy matcher as parameters.  Returns
`some (player_id, resolved_full_name)` or `none` for "not found". -/
def resolve_player_id (aliasTab : List (Str × Str)) (manual : List (Str × Nat))
    (players : List CanonicalPlayer) (closeMatch : Str → Option Str)
    (name : Str) : Option (Nat × Str) :=
  resolve_from manual players closeMatch name
    (workingNorm _normalize_name aliasTab name)

/-- The chain of `NBA Github.py`'s `resolve_player_id` after the alias step:
manual override (with external display-name lookup, falling back to the raw
input), exact, fuzzy, and the surname fallback over `_ALL_PLAYERS`.  Its
index and its surname filter use that file's own normalizer
`_normalize_name_gh` (which additionally maps `‚` to a space).
`displayLookup` abstracts the `CommonPlayerInfo`-based display-name fetch
(`none` = exception, missing column or empty frame). -/
def resolve_from_gh (manual : List (Str × Nat)) (players : List CanonicalPlayer)
    (closeMatch : Str → Option Str) (displayLookup : Nat → Option Str)
    (name norm : Str) : Option (Nat × Str) :=
  match List.lookup norm manual with
  | some pid => some (pid, (displayLookup pid).getD name)
  | none =>
    let idx := buildIndexWith _normalize_name_gh players
    match pickCandidate ((List.lookup norm idx).getD []) with
    | some p => some (p.id, p.full_name)
    | none =>
      match closeMatch norm with
      | some key =>
        match pickCandidate ((List.lookup key idx).getD []) with
        | some p => some (p.id, p.full_name)
        | none => none
      | none =>
        match (pySplit norm).getLast? with
        | some lastTok =>
          match pickCandidate (players.filter
              (fun p => List.isSuffixOf (' ' :: lastTok)
                (_normalize_name_gh p.full_name))) with
          | some p => some (p.id, p.full_name)
          | none => none
        | none => none

/-- `resolve_player_id` of `NBA Github.py` (lines 113-165): the variant with
the surname-fallback step 4; its working value, index and surname pool all
use that file's `_normalize_name_gh`. -/
def resolve_player_id_gh (aliasTab : List (Str × Str)) (manual : List (Str × Nat))
    (players : List CanonicalPlayer) (closeMatch : Str → Option Str)
    (displayLookup : Nat → Option Str) (name : Str) : Option (Nat × Str) :=
  resolve_from_gh manual players closeMatch displayLookup name
    (workingNorm _normalize_name_gh aliasTab name)

/-! ## Team affiliation (`get_current_team_abbrev`) -/

/-- `get_current_team_abbrev` (collect.py lines 152-171), state-passing.
`profile` abstracts the `CommonPlayerInfo` call followed by
`str(...).strip()`: it returns the stripped `TEAM_ABBREVIATION` string, with
`[]` standing for an exception, a missing column or an empty frame.
`teamCol` is the `TEAM_ABBREVIATION` column of `spiele_df` in row order
(`none` = `spiele_df is None`; the main loop guarantees the column exists).
Returns the team string, the updated cache, and whether the external profile
lookup was invoked. -/
def get_current_team_abbrev (profile : Nat → Str) (player_id : Nat)
    (teamCol : Option (List Str)) (cache : List (Nat × Str)) :
    Str × List (Nat × Str) × Bool :=
  match List.lookup player_id cache with
  | some v => (v, cache, false)
  | none =>
    let t1 := profile player_id
    let t2 :=
      if t1 = [] then
        match teamCol with
        | some (v :: _) => stripList v
        | _ => t1
      else t1
    let t3 := if t2 = [] then "FA".toList else t2
    (t3, cache ++ [(player_id, t3)], true)

/-- Process a sequence of `(player_id, game column)` requests through the
shared cache, as the main loop does one player at a time.  Returns the final
cache and the list of ids for which the external profile lookup was invoked
(one entry per invocation). -/
def runTeamRequests (profile : Nat → Str) :
    List (Nat × Option (List Str)) → List (Nat × Str) →
    List (Nat × Str) × List Nat
  | [], cache => (cache, [])
  | (pid, col) :: rest, cache =>
    let r := get_current_team_abbrev profile pid col cache
    let rec' := runTeamRequests profile rest r.2.1
    (rec'.1, (if r.2.2 then [pid] else []) ++ rec'.2)

/-! ## Game data and milestone counting -/

/-- A pandas DataFrame of integer stat columns: row count plus an
association list column name → column values (insertion order kept).
`WF` states the pandas invariant that every column has `nrows` entries.
(The `TEAM_ABBREVIATION` string column is modelled separately, as the
`teamCol` argument above; milestone counting only reads stat columns.) -/
structure DataFrame where
  nrows : Nat
  cols : List (String × List Int)
deriving DecidableEq, Repr

def DataFrame.WF (df : DataFrame) : Prop :=
  ∀ p ∈ df.cols, (p.2 : List Int).length = df.nrows

instance (df : DataFrame) : Decidable df.WF := by
  unfold DataFrame.WF; infer_instance

/-- `df.get(name, 0)`: a `pd.Series` when the column exists, else the
scalar default `0`. -/
inductive PdVal where
  | series (l : List Int)
  | scalar (z : Int)
deriving DecidableEq, Repr

def DataFrame.get (df : DataFrame) (name : String) : PdVal :=
  match List.lookup name df.cols with
  | some l => .series l
  | none => .scalar 0

/-- pandas `+` on the result of `df.get`: series align positionally (both
series come from the same frame, hence share an index); a scalar
broadcasts. -/
def pdAdd : PdVal → PdVal → PdVal
  | .series a, .series b => .series (List.zipWith (· + ·) a b)
  | .series a, .scalar z => .series (a.map (· + z))
  | .scalar z, .series b => .series (b.map (z + ·))
  | .scalar z, .scalar w => .scalar (z + w)

/-- pandas `-` on the result of `df.get`, same conventions as `pdAdd`. -/
def pdSub : PdVal → PdVal → PdVal
  | .series a, .series b => .series (List.zipWith (· - ·) a b)
  | .series a, .scalar z => .series (a.map (· - z))
  | .scalar z, .series b => .series (b.map (z - ·))
  | .scalar z, .scalar w => .scalar (z - w)

/-- `.clip(lower=0)`.  (The scalar case cannot arise in the main loop, where
`FGM` and `FG3M` have been filled in; it is given the elementwise value.) -/
def pdClipLo0 : PdVal → PdVal
  | .series a => .series (a.map (fun v => max 0 v))
  | .scalar z => .scalar (max 0 z)

/-- The `serie` computed for one metric by `count_milestones`, after the
`isinstance` fix-up: the composite `STL+BLK` sums the two columns, any other
metric reads its own column; a scalar (missing column) is replaced by
`pd.Series([0] * len(spiele))`. -/
def metricSeries (df : DataFrame) (metric : String) : List Int :=
  let s :=
    if metric = "STL+BLK" then pdAdd (df.get "STL") (df.get "BLK")
    else df.get metric
  match s with
  | .series l => l
  | .scalar _ => List.replicate df.nrows 0

/-- `count_milestones` (collect.py lines 176-183).  The Python dict keyed by
metric and the inner dict keyed by the label `f"{limit}+"` are modelled as
insertion-ordered association lists keyed by the metric name and by the
threshold itself (the labels `"{limit}+"` are in bijection with the
thresholds of a metric, which are distinct).  `int((serie >= limit).sum())`
counts the entries `≥ limit`. -/
def count_milestones (df : DataFrame) (thresholds : List (String × List Int)) :
    List (String × List (Int × Nat)) :=
  thresholds.map fun ml =>
    (ml.1, ml.2.map fun limit =>
      (limit, ((metricSeries df ml.1).filter (fun v => limit ≤ v)).length))

/-- The `milestones` threshold table (collect.py lines 185-196). -/
def milestones : List (String × List Int) :=
  [("PTS", [3, 5, 7, 10, 12, 14, 17, 20]),
   ("REB", [1, 2, 3, 4, 5, 6, 7, 8, 9, 10]),
   ("AST", [1, 2, 3, 4, 5, 6, 7, 8, 9, 10]),
   ("STL", [1, 2]),
   ("BLK", [1, 2]),
   ("STL+BLK", [1, 2, 3]),
   ("FG3M", [1, 2, 3]),
   ("FG2M", [2, 4, 6, 8, 10, 12]),
   ("FTM", [2, 4, 6, 8, 10]),
   ("TO", [1, 2, 3, 4, 5])]

/-- `spiele.head(n)`: the first `n` rows (all of them when `n ≥ nrows`).
The main loop's `spiele.head(LAST_N) if not spiele.empty else spiele`
coincides with this on empty frames. -/
def DataFrame.head (df : DataFrame) (n : Nat) : DataFrame :=
  ⟨min n df.nrows, df.cols.map fun p => (p.1, p.2.take n)⟩

/-- `spiele[name] = value` for a column of values: replace the column if the
name exists, else append it (pandas keeps column insertion order). -/
def setAssoc (cols : List (String × List Int)) (name : String)
    (vals : List Int) : List (String × List Int) :=
  match cols with
  | [] => [(name, vals)]
  | (k, l) :: t =>
    if k = name then (k, vals) :: t else (k, l) :: setAssoc t name vals

def DataFrame.setCol (df : DataFrame) (name : String) (vals : List Int) :
    DataFrame :=
  ⟨df.nrows, setAssoc df.cols name vals⟩

/-- Broadcast the result of a series expression into column values for
assignment (a scalar fills the whole column, as in pandas). -/
def DataFrame.broadcast (df : DataFrame) : PdVal → List Int
  | .series l => l
  | .scalar z => List.replicate df.nrows z

/-- `needed_cols` of `collect.py` line 247 (without the string column
`TEAM_ABBREVIATION`, which the integer frame models separately; the source
fills it with `0` like the others, and milestone counting never reads it). -/
def needed_cols : List String :=
  ["PTS", "REB", "AST", "STL", "BLK", "FG3M", "TO", "FGM", "FG3A", "FTM"]

/-- The fill loop `for col in needed_cols: if col not in spiele.columns:
spiele[col] = 0`. -/
def fillCols : List String → DataFrame → DataFrame
  | [], df => df
  | c :: rest, df =>
    fillCols rest
      (if (List.lookup c df.cols).isSome then df
       else df.setCol c (List.replicate df.nrows 0))

/-- `spiele["FG2M"] = (spiele.get("FGM", 0) - spiele.get("FG3M", 0))
.clip(lower=0)` (collect.py line 253). -/
def derive_fg2m (df : DataFrame) : DataFrame :=
  df.setCol "FG2M" (df.broadcast (pdClipLo0 (pdSub (df.get "FGM") (df.get "FG3M"))))

/-- `s["..."].get(cat, {}).get(f"{limit}+", 0)`: the caller's lookup of one
count, defaulting to `0`. -/
def lookupCount (res : List (String × List (Int × Nat))) (cat : String)
    (limit : Int) : Nat :=
  (List.lookup limit ((List.lookup cat res).getD [])).getD 0

/-- `last_pct = (last_val / LAST_N * 100) if LAST_N > 0 else 0.0`
(collect.py line 304), over ℚ. -/
def last_pct (lastN last_val : Nat) : ℚ :=
  if 0 < lastN then (last_val : ℚ) / (lastN : ℚ) * 100 else 0

/-- `full_pct = (full_val / gp * 100) if gp > 0 else 0.0`
(collect.py line 308), over ℚ. -/
def full_pct (gp full_val : Nat) : ℚ :=
  if 0 < gp then (full_val : ℚ) / (gp : ℚ) * 100 else 0

/-! ## Specification-side definitions

These follow the wording of the spec (not the code) and are used on the
right-hand side of the refinement statements. -/

/-- The named column's value for game `i`, with 0 substituted when the
column is missing. -/
def colValD (df : DataFrame) (name : String) (i : Nat) : Int :=
  ((List.lookup name df.cols).getD []).getD i 0

/-- Spec §4.4: the per-game value of a metric — `STL + BLK` for the derived
composite, otherwise the named column's value. -/
def specPerGame (df : DataFrame) (metric : String) (i : Nat) : Int :=
  if metric = "STL+BLK" then colValD df "STL" i + colValD df "BLK" i
  else colValD df metric i

/-- Spec §4.4: `MilestoneCount[T]` = number of games whose per-game
value ≥ T. -/
def specCount (df : DataFrame) (metric : String) (T : Int) : Nat :=
  ((List.range df.nrows).filter (fun i => T ≤ specPerGame df metric i)).length

/-- Spec §4.2 tie-break: the first candidate with `isActive = true` in index
insertion order, otherwise the first candidate in insertion order. -/
def specPickFirstActive (cs : List CanonicalPlayer) : Option CanonicalPlayer :=
  match (cs.filter (fun c => c.is_active)).head? with
  | some a => some a
  | none => cs.head?

/-- Spec §4.3: the profile lookup's team abbreviation when non-empty, else
the team abbreviation on the first element of the game sequence when
non-empty, else the sentinel `"FA"`. -/
def teamValue (profile : Nat → Str) (pid : Nat)
    (teamCol : Option (List Str)) : Str :=
  if profile pid ≠ [] then profile pid
  else
    match teamCol with
    | some (v :: _) => if stripList v ≠ [] then stripList v else "FA".toList
    | _ => "FA".toList

/-! ## Proof-side predicates for the normalization pipeline

`noSuffixTok p l` scans `l` exactly like `subSuffixGo` and records that the
suffix pattern matches at no position; `noTwoGo prev l` records that no two
whitespace characters are adjacent; `mapFixed c` records that the four
character maps of the pipeline fix `c`. -/

def noSuffixTok : Bool → Str → Bool
  | _, [] => true
  | p, c :: cs =>
    ((p || !isWordChar c) || (tryAlt suffixAlts (c :: cs)).isNone) &&
      noSuffixTok (isWordChar c) cs

def noTwoGo : Bool → Str → Bool
  | _, [] => true
  | prevSpace, c :: cs =>
    (!(prevSpace && isSpaceChar c)) && noTwoGo (isSpaceChar c) cs

def mapFixed (c : Char) : Bool :=
  (pyLower c == c) && (replQuotes c == c) && (replPunct c == c) &&
    (replHyphen c == c)

/-! ## Helper lemmas: association lists and counting -/

theorem lookup_mem {α β : Type} [DecidableEq α] {l : List (α × β)} {k : α}
    {v : β} (h : List.lookup k l = some v) : (k, v) ∈ l := by
  induction l with
  | nil => simp [List.lookup] at h
  | cons a t ih =>
    rw [List.lookup] at h
    split at h
    · next heq =>
      cases h
      have h1 : k = a.1 := by simpa using heq
      subst h1
      simp
    · right; exact ih h

theorem filter_length_mono {α : Type} (l : List α) (P Q : α → Bool)
    (h : ∀ x, Q x = true → P x = true) :
    (l.filter Q).length ≤ (l.filter P).length := by
  induction l with
  | nil => simp
  | cons a t ih =>
    rw [List.filter_cons, List.filter_cons]
    by_cases hq : Q a = true
    · rw [if_pos hq, if_pos (h a hq)]
      simpa using ih
    · rw [if_neg hq]
      split
    
      · exact le_trans ih (by simp)
      · exact ih

theorem length_filter_eq_range (l : List Int) (P : Int → Bool) :
    (l.filter P).length =
      ((List.range l.length).filter (fun i => P (l.getD i 0))).length := by
  induction l with
  | nil => simp
  | cons a t ih =>
    rw [List.length_cons, List.range_succ_eq_map]
    simp only [List.filter_cons, List.getD_cons_zero]
    have hmap : List.filter (fun i => P ((a :: t).getD i 0))
        (List.map Nat.succ (List.range t.length)) =
        List.map Nat.succ
          (List.filter (fun i => P (t.getD i 0)) (List.range t.length)) := by
      rw [List.filter_map]
      refine congrArg _ (List.filter_congr ?_)
      intro i _
      simp [Function.comp, List.getD_cons_succ]
    by_cases hp : P a = true
    · rw [if_pos hp, if_pos hp, List.length_cons, List.length_cons, hmap,
        List.length_map, ih]
    · rw [if_neg hp, if_neg hp, hmap, List.length_map, ih]

theorem lookup_col_length {df : DataFrame} (h : df.WF) {name : String}
    {l : List Int} (hl : List.lookup name df.cols = some l) :
    l.length = df.nrows := h _ (lookup_mem hl)

theorem getD_zipWith (f : Int → Int → Int) {a b : List Int} {i : Nat}
    (ha : i < a.length) (hb : i < b.length) :
    (List.zipWith f a b).getD i 0 = f (a.getD i 0) (b.getD i 0) := by
  have hz : i < (List.zipWith f a b).length := by
    rw [List.length_zipWith]; exact lt_min ha hb
  rw [List.getD_eq_getElem _ _ hz, List.getD_eq_getElem _ _ ha,
    List.getD_eq_getElem _ _ hb]
  simp [List.getElem_zipWith]

theorem getD_map (f : Int → Int) {a : List Int} {i : Nat} (ha : i < a.length) :
    (a.map f).getD i 0 = f (a.getD i 0) := by
  have hz : i < (a.map f).length := by simpa using ha
  rw [List.getD_eq_getElem _ _ hz, List.getD_eq_getElem _ _ ha]
  simp

theorem getD_replicate {z : Int} {n i : Nat} (hi : i < n) :
    (List.replicate n z).getD i 0 = z := by
  have hz : i < (List.replicate n z).length := by simpa using hi
  rw [List.getD_eq_getElem _ _ hz]
  simp

/-! ## Helper lemmas: `metricSeries` against the spec's per-game value -/

theorem colValD_some {df : DataFrame} {name : String} {s : List Int}
    (hs : List.lookup name df.cols = some s) (i : Nat) :
    colValD df name i = s.getD i 0 := by simp [colValD, hs]

theorem colValD_none {df : DataFrame} {name : String}
    (hs : List.lookup name df.cols = none) (i : Nat) :
    colValD df name i = 0 := by simp [colValD, hs]

theorem metricSeries_length {df : DataFrame} (h : df.WF) (metric : String) :
    (metricSeries df metric).length = df.nrows := by
  unfold metricSeries DataFrame.get
  by_cases hm : metric = "STL+BLK"
  · rw [if_pos hm]
    cases h1 : List.lookup "STL" df.cols with
    | some s =>
      cases h2 : List.lookup "BLK" df.cols with
      | some b => simp [pdAdd, lookup_col_length h h1, lookup_col_length h h2]
      | none => simp [pdAdd, lookup_col_length h h1]
    | none =>
      cases h2 : List.lookup "BLK" df.cols with
      | some b => simp [pdAdd, lookup_col_length h h2]
      | none => simp [pdAdd]
  · rw [if_neg hm]
    cases h1 : List.lookup metric df.cols with
    | some l => simp [lookup_col_length h h1]
    | none => simp

theorem metricSeries_getD {df : DataFrame} (h : df.WF) (metric : String)
    {i : Nat} (hi : i < df.nrows) :
    (metricSeries df metric).getD i 0 = specPerGame df metric i := by
  unfold metricSeries DataFrame.get specPerGame
  by_cases hm : metric = "STL+BLK"
  · rw [if_pos hm, if_pos hm]
    cases h1 : List.lookup "STL" df.cols with
    | some s =>
      cases h2 : List.lookup "BLK" df.cols with
      | some b =>
        rw [colValD_some h1, colValD_some h2]
        exact getD_zipWith _ (by rw [lookup_col_length h h1]; exact hi)
          (by rw [lookup_col_length h h2]; exact hi)
      | none =>
        rw [colValD_some h1, colValD_none h2]
        simpa [pdAdd] using
          getD_map (· + 0) (by rw [lookup_col_length h h1]; exact hi)
    | none =>
      cases h2 : List.lookup "BLK" df.cols with
      | some b =>
        rw [colValD_none h1, colValD_some h2]
        simpa [pdAdd] using
          getD_map (0 + ·) (by rw [lookup_col_length h h2]; exact hi)
      | none =>
        rw [colValD_none h1, colValD_none h2]
        simpa [pdAdd] using getD_replicate hi
  · rw [if_neg hm, if_neg hm]
    cases h1 : List.lookup metric df.cols with
    | some l => rw [colValD_some h1]
    | none => rw [colValD_none h1]; exact getD_replicate hi

theorem count_eq_specCount {df : DataFrame} (h : df.WF) (metric : String)
    (T : Int) :
    ((metricSeries df metric).filter (fun v => T ≤ v)).length =
      specCount df metric T := by
  rw [length_filter_eq_range, metricSeries_length h]
  unfold specCount
  refine congrArg _ (List.filter_congr ?_)
  intro i hi
  rw [List.mem_range] at hi
  rw [metricSeries_getD h metric hi]

/-! ## Helper lemmas: column assignment and the fill loop -/

theorem setAssoc_lookup_self (cols : List (String × List Int)) (name : String)
    (vals : List Int) :
    List.lookup name (setAssoc cols name vals) = some vals := by
  induction cols with
  | nil => simp [setAssoc, List.lookup]
  | cons a t ih =>
    obtain ⟨k, l⟩ := a
    by_cases hk : k = name
    · simp [setAssoc, hk, List.lookup]
    · simp only [setAssoc, if_neg hk, List.lookup]
      have : (name == k) = false := by
        simp [Ne.symm hk]
      simp [this, ih]

theorem setAssoc_lookup_ne (cols : List (String × List Int))
    {c name : String} (vals : List Int) (h : c ≠ name) :
    List.lookup c (setAssoc cols name vals) = List.lookup c cols := by
  induction cols with
  | nil =>
    have hb : (c == name) = false := by simp [h]
    simp [setAssoc, List.lookup, hb]
  | cons a t ih =>
    obtain ⟨k, l⟩ := a
    by_cases hk : k = name
    · subst hk
      have : (c == k) = false := by simp [h]
      simp [setAssoc, List.lookup, this]
    · simp only [setAssoc, if_neg hk, List.lookup]
      by_cases hck : c == k
      · simp [hck]
      · simp only [Bool.not_eq_true] at hck
        simp [hck, ih]

theorem mem_setAssoc {cols : List (String × List Int)} {name : String}
    {vals : List Int} {p : String × List Int} (hp : p ∈ setAssoc cols name vals) :
    p ∈ cols ∨ p = (name, vals) := by
  induction cols with
  | nil => simpa [setAssoc] using hp
  | cons a t ih =>
    obtain ⟨k, l⟩ := a
    by_cases hk : k = name
    · subst hk
      rw [setAssoc, if_pos rfl] at hp
      rcases List.mem_cons.1 hp with h1 | h1
      · right; simpa using h1
      · left; exact List.mem_cons_of_mem _ h1
    · rw [setAssoc, if_neg hk] at hp
      rcases List.mem_cons.1 hp with h1 | h1
      · left; simp [h1]
      · rcases ih h1 with h2 | h2
        · left; exact List.mem_cons_of_mem _ h2
        · right; exact h2

theorem setCol_WF {df : DataFrame} (h : df.WF) {name : String}
    {vals : List Int} (hv : vals.length = df.nrows) :
    (df.setCol name vals).WF := by
  intro p hp
  rcases mem_setAssoc hp with h1 | h1
  · exact h p h1
  · subst h1; exact hv

theorem fillCols_nrows : ∀ (cs : List String) (df : DataFrame),
    (fillCols cs df).nrows = df.nrows := by
  intro cs
  induction cs with
  | nil => intro df; rfl
  | cons c rest ih =>
    intro df
    rw [fillCols]
    split
    · exact ih df
    · exact ih _

theorem fillCols_WF : ∀ (cs : List String) (df : DataFrame),
    df.WF → (fillCols cs df).WF := by
  intro cs
  induction cs with
  | nil => intro df h; exact h
  | cons c rest ih =>
    intro df h
    rw [fillCols]
    split
    · exact ih df h
    · exact ih _ (setCol_WF h (by simp))

theorem fillCols_lookup_some : ∀ (cs : List String) (df : DataFrame)
    {c : String} {v : List Int}, List.lookup c df.cols = some v →
    List.lookup c (fillCols cs df).cols = some v := by
  intro cs
  induction cs with
  | nil => intro df c v h; exact h
  | cons c0 rest ih =>
    intro df c v h
    rw [fillCols]
    split
    · exact ih df h
    · refine ih _ ?_
      show List.lookup c (setAssoc df.cols c0 _) = some v
      by_cases hc : c = c0
      · subst hc
        next hnone =>
          rw [h] at hnone
          simp at hnone
      · rw [setAssoc_lookup_ne _ _ hc]
        exact h

theorem fillCols_lookup_filled : ∀ (cs : List String) (df : DataFrame)
    {c : String}, c ∈ cs → List.lookup c df.cols = none →
    List.lookup c (fillCols cs df).cols = some (List.replicate df.nrows 0) := by
  intro cs
  induction cs with
  | nil => intro df c h; simp at h
  | cons c0 rest ih =>
    intro df c hmem hnone
    rw [fillCols]
    by_cases hc : c = c0
    · subst hc
      rw [hnone]
      simp only [Option.isSome_none, Bool.false_eq_true, if_false]
      exact fillCols_lookup_some rest _ (setAssoc_lookup_self _ _ _)
    · have hrest : c ∈ rest := by
        rcases List.mem_cons.1 hmem with h1 | h1
        · exact absurd h1 hc
        · exact h1
      split
      · exact ih df hrest hnone
      · have : List.lookup c (df.setCol c0 (List.replicate df.nrows 0)).cols
            = none := by
          show List.lookup c (setAssoc df.cols c0 _) = none
          rw [setAssoc_lookup_ne _ _ hc]
          exact hnone
        have hres := ih _ hrest this
        simpa using hres

/-! ## Helper lemmas: head, lookupCount bounds, percentage arithmetic -/

theorem head_nrows (df : DataFrame) (n : Nat) :
    (df.head n).nrows = min n df.nrows := rfl

theorem head_WF {df : DataFrame} (h : df.WF) (n : Nat) : (df.head n).WF := by
  intro p hp
  simp only [DataFrame.head, List.mem_map] at hp
  obtain ⟨q, hq, rfl⟩ := hp
  show (q.2.take n).length = (df.head n).nrows
  rw [head_nrows, List.length_take, h q hq]

theorem lookupCount_le {df : DataFrame} {ths : List (String × List Int)}
    {cat : String} {limit : Int} (h : df.WF) :
    lookupCount (count_milestones df ths) cat limit ≤ df.nrows := by
  unfold lookupCount
  cases hcat : List.lookup cat (count_milestones df ths) with
  | none => simp
  | some inner =>
    cases hlim : List.lookup limit inner with
    | none => simp [hlim]
    | some c =>
      simp only [hlim, Option.getD_some]
      have h1 := lookup_mem hcat
      unfold count_milestones at h1
      rw [List.mem_map] at h1
      obtain ⟨ml, _, heq⟩ := h1
      have hinner : inner = ml.2.map (fun limit =>
          (limit, ((metricSeries df ml.1).filter (fun v => limit ≤ v)).length)) := by
        have := congrArg Prod.snd heq
        simpa using this.symm
      rw [hinner] at hlim
      have h2 := lookup_mem hlim
      rw [List.mem_map] at h2
      obtain ⟨T, _, heq2⟩ := h2
      have hc : c = ((metricSeries df ml.1).filter (fun v => T ≤ v)).length := by
        have := congrArg Prod.snd heq2
        simpa using this.symm
      rw [hc, ← metricSeries_length h ml.1]
      exact List.length_filter_le _ _

theorem derive_fg2m_lookup (df : DataFrame) {fgm fg3 : List Int}
    (hfgm : List.lookup "FGM" df.cols = some fgm)
    (hfg3 : List.lookup "FG3M" df.cols = some fg3) :
    List.lookup "FG2M" (derive_fg2m df).cols =
      some ((List.zipWith (· - ·) fgm fg3).map (fun v => max 0 v)) := by
  unfold derive_fg2m DataFrame.setCol DataFrame.get
  rw [hfgm, hfg3]
  simp only [pdSub, pdClipLo0, DataFrame.broadcast]
  exact setAssoc_lookup_self _ _ _

theorem full_pct_eq_last_pct (n k : Nat) : full_pct n k = last_pct n k := rfl

theorem last_pct_bounds (n k : Nat) (hk : k ≤ n) :
    0 ≤ last_pct n k ∧ last_pct n k ≤ 100 := by
  unfold last_pct
  split
  · next hn =>
    constructor
    · positivity
    · have h1 : (k : ℚ) ≤ (n : ℚ) := by exact_mod_cast hk
      have h2 : (0 : ℚ) < (n : ℚ) := by exact_mod_cast hn
      calc (k : ℚ) / (n : ℚ) * 100 ≤ 1 * 100 := by
            apply mul_le_mul_of_nonneg_right _ (by norm_num)
            rw [div_le_one h2]
            exact h1
        _ = 100 := by norm_num
  · norm_num

/-- C2: for every game frame and threshold table, `count_milestones`
returns, for each metric and each threshold T of that metric, exactly the
number of games whose per-game value is ≥ T, where the per-game value is
STL + BLK for the composite metric `"STL+BLK"` and otherwise the named
column's value, with 0 substituted for any game missing that column. -/
theorem c2_count_milestones_matches_spec (df : DataFrame)
    (ths : List (String × List Int)) (h : df.WF) :
    count_milestones df ths =
      ths.map (fun ml => (ml.1, ml.2.map (fun T => (T, specCount df ml.1 T)))) := by
  unfold count_milestones
  refine List.map_congr_left ?_
  intro ml _
  refine congrArg (Prod.mk ml.1) ?_
  refine List.map_congr_left ?_
  intro T _
  rw [count_eq_specCount h]

/-- Witness for C2 at a concrete frame (one present column, `STL+BLK` with
only `STL` present, and one entirely missing column). -/
theorem c2_witness :
    count_milestones (⟨2, [("PTS", [25, 15]), ("STL", [1, 0])]⟩ : DataFrame)
        [("PTS", [10, 20]), ("STL+BLK", [1]), ("REB", [5])] =
      ([("PTS", [10, 20]), ("STL+BLK", [1]), ("REB", [5])] :
          List (String × List Int)).map
        (fun ml => (ml.1, ml.2.map (fun T =>
          (T, specCount (⟨2, [("PTS", [25, 15]), ("STL", [1, 0])]⟩ : DataFrame)
            ml.1 T)))) :=
  c2_count_milestones_matches_spec _ _ (by decide)

/-- C3: for a fixed frame, the counts of `count_milestones` are
non-increasing along each metric's threshold list: if T1 ≤ T2 then
count(T2) ≤ count(T1). -/
theorem c3_counts_antitone (df : DataFrame) (ths : List (String × List Int)) :
    ∀ entry ∈ count_milestones df ths, ∀ p ∈ entry.2, ∀ q ∈ entry.2,
      p.1 ≤ q.1 → q.2 ≤ p.2 := by
  intro entry hentry p hp q hq hpq
  unfold count_milestones at hentry
  rw [List.mem_map] at hentry
  obtain ⟨ml, _, rfl⟩ := hentry
  simp only [List.mem_map] at hp hq
  obtain ⟨T1, _, rfl⟩ := hp
  obtain ⟨T2, _, rfl⟩ := hq
  simp only at hpq ⊢
  apply filter_length_mono
  intro x hx
  simp only [decide_eq_true_eq] at hx ⊢
  omega

/-- Witness for C3: PTS column [25, 15], thresholds 10 ≤ 20, counts 2 ≥ 1. -/
theorem c3_witness :
    ("PTS", [((10 : Int), (2 : Nat)), (20, 1)]) ∈
        count_milestones (⟨2, [("PTS", [25, 15])]⟩ : DataFrame)
          [("PTS", [10, 20])] ∧
      (1 : Nat) ≤ 2 :=
  ⟨by decide,
    c3_counts_antitone (⟨2, [("PTS", [25, 15])]⟩ : DataFrame)
      [("PTS", [10, 20])] ("PTS", [((10 : Int), (2 : Nat)), (20, 1)])
      (by decide) ((10 : Int), (2 : Nat)) (by decide) ((20 : Int), (1 : Nat))
      (by decide) (by decide)⟩

/-- C9: after the main loop's column fill, the derived `FG2M` column equals
`max 0 (FGM − FG3M)` at every game, with `FGM` and `FG3M` read as 0 when the
column was missing, and is therefore never negative. -/
theorem c9_fg2m_derivation (df : DataFrame) (h : df.WF) :
    ∀ i < df.nrows, ∃ col,
      List.lookup "FG2M" (derive_fg2m (fillCols needed_cols df)).cols
          = some col ∧
        col.getD i 0 = max 0 (colValD df "FGM" i - colValD df "FG3M" i) ∧
        0 ≤ col.getD i 0 := by
  intro i hi
  have hn2 : (fillCols needed_cols df).nrows = df.nrows :=
    fillCols_nrows _ _
  have hcol : ∀ c : String, c ∈ needed_cols → ∃ v,
      List.lookup c (fillCols needed_cols df).cols = some v ∧
        v.length = df.nrows ∧ v.getD i 0 = colValD df c i := by
    intro c hc
    cases hl : List.lookup c df.cols with
    | some v =>
      refine ⟨v, fillCols_lookup_some _ _ hl, h _ (lookup_mem hl), ?_⟩
      rw [colValD_some hl]
    | none =>
      refine ⟨List.replicate df.nrows 0, ?_, by simp, ?_⟩
      · exact fillCols_lookup_filled _ _ hc hl
      · rw [colValD_none hl, getD_replicate hi]
  obtain ⟨fgm, hfgm, hflen, hfval⟩ := hcol "FGM" (by decide)
  obtain ⟨fg3, hfg3, h3len, h3val⟩ := hcol "FG3M" (by decide)
  have hif : i < fgm.length := by rw [hflen]; exact hi
  have hi3 : i < fg3.length := by rw [h3len]; exact hi
  refine ⟨(List.zipWith (· - ·) fgm fg3).map (fun v => max 0 v),
    derive_fg2m_lookup _ hfgm hfg3, ?_, ?_⟩
  · rw [getD_map (fun v => max 0 v)
        (by rw [List.length_zipWith]; exact lt_min hif hi3),
      getD_zipWith (· - ·) hif hi3, hfval, h3val]
  · rw [getD_map (fun v => max 0 v)
        (by rw [List.length_zipWith]; exact lt_min hif hi3)]
    exact le_max_left _ _

/-- Witness for C9: FGM = 10, FG3M = 12 on a one-row frame gives FG2M = 0. -/
theorem c9_witness : ∃ col,
    List.lookup "FG2M" (derive_fg2m (fillCols needed_cols
        (⟨1, [("FGM", [10]), ("FG3M", [12])]⟩ : DataFrame))).cols = some col ∧
      col.getD 0 0 = 0 ∧ 0 ≤ col.getD 0 0 := by
  obtain ⟨col, h1, h2, h3⟩ :=
    c9_fg2m_derivation (⟨1, [("FGM", [10]), ("FG3M", [12])]⟩ : DataFrame)
      (by decide) 0 (by decide)
  refine ⟨col, h1, ?_, h3⟩
  rw [h2]
  decide

/-- C10: for every game frame (including the empty one) and every threshold
table, `count_milestones` has exactly the table's metrics as keys in order,
each metric's inner list has exactly that metric's thresholds as keys in
order, and every count lies between 0 and the number of games, even when a
referenced stat column is entirely absent. -/
theorem c10_count_milestones_shape (df : DataFrame)
    (ths : List (String × List Int)) (h : df.WF) :
    ((count_milestones df ths).map Prod.fst = ths.map Prod.fst) ∧
      ∀ entry ∈ count_milestones df ths, ∃ ml ∈ ths, entry.1 = ml.1 ∧
        entry.2.map Prod.fst = ml.2 ∧ ∀ p ∈ entry.2, p.2 ≤ df.nrows := by
  constructor
  · unfold count_milestones
    rw [List.map_map]
    rfl
  · intro entry hentry
    unfold count_milestones at hentry
    rw [List.mem_map] at hentry
    obtain ⟨ml, hml, rfl⟩ := hentry
    refine ⟨ml, hml, rfl, ?_, ?_⟩
    · rw [List.map_map]
      exact (List.map_congr_left (fun a _ => rfl)).trans (List.map_id _)
    · intro p hp
      rw [List.mem_map] at hp
      obtain ⟨T, _, rfl⟩ := hp
      show (List.filter _ (metricSeries df ml.1)).length ≤ df.nrows
      rw [← metricSeries_length h ml.1]
      exact List.length_filter_le _ _

/-- Witness for C10 on an empty frame with a missing column. -/
theorem c10_witness :
    (count_milestones (⟨0, []⟩ : DataFrame) [("PTS", [10]), ("STL+BLK", [1])]).map
        Prod.fst =
      ([("PTS", [10]), ("STL+BLK", [1])] : List (String × List Int)).map
        Prod.fst :=
  (c10_count_milestones_shape (⟨0, []⟩ : DataFrame)
    [("PTS", [10]), ("STL+BLK", [1])] (by decide)).1

/-- C8: the caller's percentage derivation — `recentPct = recentCount / N`
when the window size N > 0 and 0 when N = 0; `fullPct = fullCount /
gamesPlayed` when gamesPlayed > 0 and 0 when it is 0; the rendered
percentages lie in [0, 100] and the raw fractions (`pct / 100`, the hidden
helper-column values) lie in [0, 1]. -/
theorem c8_percentage_bounds (df : DataFrame) (ths : List (String × List Int))
    (cat : String) (limit : Int) (lastN : Nat) (L F : Nat) (h : df.WF)
    (hL : L = lookupCount (count_milestones (df.head lastN) ths) cat limit)
    (hF : F = lookupCount (count_milestones df ths) cat limit) :
    (lastN = 0 → last_pct lastN L = 0) ∧
      (0 < lastN → last_pct lastN L = (L : ℚ) / (lastN : ℚ) * 100) ∧
      (df.nrows = 0 → full_pct df.nrows F = 0) ∧
      (0 < df.nrows → full_pct df.nrows F = (F : ℚ) / (df.nrows : ℚ) * 100) ∧
      (0 ≤ last_pct lastN L ∧ last_pct lastN L ≤ 100) ∧
      (0 ≤ full_pct df.nrows F ∧ full_pct df.nrows F ≤ 100) ∧
      (0 ≤ last_pct lastN L / 100 ∧ last_pct lastN L / 100 ≤ 1) ∧
      (0 ≤ full_pct df.nrows F / 100 ∧ full_pct df.nrows F / 100 ≤ 1) := by
  have hLle : L ≤ lastN := by
    rw [hL]
    refine le_trans (lookupCount_le (head_WF h lastN)) ?_
    rw [head_nrows]
    exact min_le_left _ _
  have hFle : F ≤ df.nrows := by
    rw [hF]
    exact lookupCount_le h
  have hLb := last_pct_bounds lastN L hLle
  have hFb := last_pct_bounds df.nrows F hFle
  rw [← full_pct_eq_last_pct] at hFb
  refine ⟨?_, ?_, ?_, ?_, hLb, hFb, ?_, ?_⟩
  · intro h0; simp [last_pct, h0]
  · intro h0; simp [last_pct, h0]
  · intro h0; simp [full_pct, h0]
  · intro h0; simp [full_pct, h0]
  · constructor
    · exact div_nonneg hLb.1 (by norm_num)
    · rw [div_le_one (by norm_num : (0:ℚ) < 100)]
      exact hLb.2
  · constructor
    · exact div_nonneg hFb.1 (by norm_num)
    · rw [div_le_one (by norm_num : (0:ℚ) < 100)]
      exact hFb.2

/-- Witness for C8 at a two-game frame with the source's window size 8 and
threshold table. -/
theorem c8_witness :
    (0 ≤ last_pct 8 2 ∧ last_pct 8 2 ≤ 100) ∧
      (0 ≤ full_pct 2 2 ∧ full_pct 2 2 ≤ 100) := by
  have h := c8_percentage_bounds (⟨2, [("PTS", [25, 15])]⟩ : DataFrame)
    milestones "PTS" 10 8 2 2 (by decide) (by decide) (by decide)
  exact ⟨h.2.2.2.2.1, h.2.2.2.2.2.1⟩

/-! ## Helper lemmas: team-affiliation cache -/

theorem lookup_append_left {k : Nat} {v : Str} {l1 l2 : List (Nat × Str)}
    (h : List.lookup k l1 = some v) :
    List.lookup k (l1 ++ l2) = some v := by
  induction l1 with
  | nil => simp [List.lookup] at h
  | cons a t ih =>
    obtain ⟨ka, va⟩ := a
    rw [List.cons_append, List.lookup]
    rw [List.lookup] at h
    cases hk : (k == ka)
    · simp only [hk] at h ⊢
      exact ih h
    · simp only [hk] at h ⊢
      exact h

theorem lookup_append_right {k : Nat} {l1 l2 : List (Nat × Str)}
    (h : List.lookup k l1 = none) :
    List.lookup k (l1 ++ l2) = List.lookup k l2 := by
  induction l1 with
  | nil => simp
  | cons a t ih =>
    obtain ⟨ka, va⟩ := a
    rw [List.cons_append, List.lookup]
    rw [List.lookup] at h
    cases hk : (k == ka)
    · simp only [hk] at h ⊢
      exact ih h
    · simp only [hk] at h
      exact Option.noConfusion h

theorem team_cached {profile : Nat → Str} {pid : Nat}
    {teamCol : Option (List Str)} {cache : List (Nat × Str)} {v : Str}
    (h : List.lookup pid cache = some v) :
    get_current_team_abbrev profile pid teamCol cache = (v, cache, false) := by
  unfold get_current_team_abbrev
  rw [h]

theorem team_uncached {profile : Nat → Str} {pid : Nat}
    {teamCol : Option (List Str)} {cache : List (Nat × Str)}
    (h : List.lookup pid cache = none) :
    get_current_team_abbrev profile pid teamCol cache =
      (teamValue profile pid teamCol,
        cache ++ [(pid, teamValue profile pid teamCol)], true) := by
  unfold get_current_team_abbrev teamValue
  rw [h]
  by_cases h1 : profile pid = []
  · cases teamCol with
    | none => simp [h1]
    | some col =>
      cases col with
      | nil => simp [h1]
      | cons v0 rest =>
        by_cases h2 : stripList v0 = []
        · simp [h1, h2]
        · simp [h1, h2]
  · simp [h1]

theorem runTeam_invariant (profile : Nat → Str)
    (reqs : List (Nat × Option (List Str))) :
    ∀ (cache : List (Nat × Str)) (pid : Nat),
      ((List.lookup pid cache).isSome →
        List.count pid (runTeamRequests profile reqs cache).2 = 0) ∧
      List.count pid (runTeamRequests profile reqs cache).2 ≤ 1 := by
  induction reqs with
  | nil =>
    intro cache pid
    simp [runTeamRequests]
  | cons r rest ih =>
    intro cache pid
    obtain ⟨p0, col⟩ := r
    rw [runTeamRequests]
    cases hc : List.lookup p0 cache with
    | some v =>
      rw [team_cached hc]
      simpa using ih cache pid
    | none =>
      rw [team_uncached hc]
      by_cases hp : pid = p0
      · subst hp
        constructor
        · intro hs
          rw [hc] at hs
          simp at hs
        · have hmem : List.lookup pid
              (cache ++ [(pid, teamValue profile pid col)]) =
                some (teamValue profile pid col) := by
            rw [lookup_append_right hc]
            simp [List.lookup]
          have h0 := (ih _ pid).1 (by rw [hmem]; simp)
          simp [List.count_cons, h0]
      · constructor
        · intro hs
          obtain ⟨v, hv⟩ := Option.isSome_iff_exists.1 hs
          have h0 := (ih (cache ++ [(p0, teamValue profile p0 col)]) pid).1
            (by rw [lookup_append_left hv]; simp)
          simpa [List.count_cons, hp] using h0
        · have h1 := (ih (cache ++ [(p0, teamValue profile p0 col)]) pid).2
          simpa [List.count_cons, hp] using h1

theorem runTeam_cache_persists (profile : Nat → Str)
    (reqs : List (Nat × Option (List Str))) :
    ∀ (cache : List (Nat × Str)) (pid : Nat) (v : Str),
      List.lookup pid cache = some v →
      List.lookup pid (runTeamRequests profile reqs cache).1 = some v := by
  induction reqs with
  | nil =>
    intro cache pid v h
    simpa [runTeamRequests] using h
  | cons r rest ih =>
    intro cache pid v h
    obtain ⟨p0, col⟩ := r
    rw [runTeamRequests]
    cases hc : List.lookup p0 cache with
    | some w =>
      rw [team_cached hc]
      exact ih cache pid v h
    | none =>
      rw [team_uncached hc]
      exact ih _ pid v (lookup_append_left h)

/-- C7: `get_current_team_abbrev` returns the memoized value when the id is
cached (without touching the cache or the external lookup); otherwise it
returns the profile lookup's team abbreviation when non-empty, else the team
abbreviation of the first game when non-empty, else `"FA"`, writes the cache
entry for that id once, and across any request sequence the external profile
lookup is invoked at most once per id — and never for an id already
cached. -/
theorem c7_team_memoization (profile : Nat → Str) (pid : Nat)
    (teamCol : Option (List Str)) (cache : List (Nat × Str)) :
    (∀ v, List.lookup pid cache = some v →
      get_current_team_abbrev profile pid teamCol cache = (v, cache, false)) ∧
    (List.lookup pid cache = none →
      get_current_team_abbrev profile pid teamCol cache =
        (teamValue profile pid teamCol,
          cache ++ [(pid, teamValue profile pid teamCol)], true)) ∧
    (∀ reqs : List (Nat × Option (List Str)),
      List.count pid (runTeamRequests profile reqs []).2 ≤ 1) ∧
    (∀ (reqs : List (Nat × Option (List Str))) (v : Str),
      List.lookup pid cache = some v →
      List.lookup pid (runTeamRequests profile reqs cache).1 = some v) := by
  refine ⟨fun v h => team_cached h, fun h => team_uncached h, ?_, ?_⟩
  · intro reqs
    exact (runTeam_invariant profile reqs [] pid).2
  · intro reqs v h
    exact runTeam_cache_persists profile reqs cache pid v h

/-- Witness for C7: the same id processed twice triggers exactly one
external lookup, and a cached id is served from the cache. -/
theorem c7_witness :
    List.lookup 7 ([(7, "BOS".toList)] : List (Nat × Str))
        = some "BOS".toList ∧
      get_current_team_abbrev (fun _ => []) 7 none [(7, "BOS".toList)] =
        ("BOS".toList, [(7, "BOS".toList)], false) ∧
      List.count 7 (runTeamRequests (fun _ => [])
        [(7, some ["BOS".toList]), (7, some ["BOS".toList])] []).2 ≤ 1 := by
  have h := c7_team_memoization (fun _ => []) 7 none [(7, "BOS".toList)]
  exact ⟨by decide, h.1 _ (by decide),
    (c7_team_memoization (fun _ => []) 7 none []).2.2.1
      [(7, some ["BOS".toList]), (7, some ["BOS".toList])]⟩

/-! ## Helper lemmas: resolution chain -/

theorem pickCandidate_eq_spec (cs : List CanonicalPlayer) :
    pickCandidate cs = specPickFirstActive cs := by
  unfold pickCandidate specPickFirstActive
  cases cs.filter (fun c => c.is_active) with
  | nil => rfl
  | cons a t => rfl

theorem pickCandidate_eq_none (cs : List CanonicalPlayer) :
    pickCandidate cs = none ↔ cs = [] := by
  unfold pickCandidate
  cases hfa : cs.filter (fun c => c.is_active) with
  | nil =>
    cases cs with
    | nil => simp
    | cons a t => simp
  | cons a t =>
    constructor
    · intro h; simp at h
    · intro h; subst h; simp at hfa

/-- C5: when the normalized raw name is a key of the alias table, resolution
continues through the remaining steps with the re-normalized alias target;
consequently, when the target (absent from the manual table) has an exact
index match, the result is the tie-break pick of the target's bucket — with
no assumption about the index entry at the raw name's own normalized form,
so an alias override beats a direct exact match. -/
theorem c5_alias_override_wins (aliasTab : List (Str × Str))
    (manual : List (Str × Nat)) (players : List CanonicalPlayer)
    (closeMatch : Str → Option Str) (name tgt : Str)
    (halias : List.lookup (_normalize_name name) aliasTab = some tgt) :
    resolve_player_id aliasTab manual players closeMatch name =
      resolve_from manual players closeMatch name (_normalize_name tgt) ∧
    (List.lookup (_normalize_name tgt) manual = none →
      ∀ cs p, List.lookup (_normalize_name tgt) (buildIndex players) = some cs →
        pickCandidate cs = some p →
        resolve_player_id aliasTab manual players closeMatch name =
          some (p.id, p.full_name)) := by
  have hw : workingNorm _normalize_name aliasTab name = _normalize_name tgt := by
    simp [workingNorm, halias]
  constructor
  · unfold resolve_player_id
    rw [hw]
  · intro hman cs p hcs hpick
    unfold resolve_player_id
    rw [hw]
    simp [resolve_from, hman, hcs, hpick]

/-- Witness for C5: the spec's alias scenario — raw "vj edgecomb" resolves
through the alias target "vj edgecombe" to that player's id. -/
theorem c5_witness :
    List.lookup (_normalize_name "vj edgecomb".toList) ALIAS_OVERRIDES
        = some "vj edgecombe".toList ∧
      resolve_player_id ALIAS_OVERRIDES MANUAL_PLAYER_IDS
          [⟨100, "VJ Edgecombe".toList, true⟩] (fun _ => none)
          "vj edgecomb".toList =
        some (100, "VJ Edgecombe".toList) := by
  refine ⟨by decide, ?_⟩
  exact (c5_alias_override_wins ALIAS_OVERRIDES MANUAL_PLAYER_IDS
      [⟨100, "VJ Edgecombe".toList, true⟩] (fun _ => none)
      "vj edgecomb".toList "vj edgecombe".toList (by decide)).2 (by decide)
    [⟨100, "VJ Edgecombe".toList, true⟩] ⟨100, "VJ Edgecombe".toList, true⟩
    (by decide) (by decide)

/-- C6: resolution applies the same tie-break at every candidate-producing
step: `pickCandidate` coincides with the spec's rule (first candidate with
`isActive = true` in index insertion order, else the first candidate), and
whichever of the exact, fuzzy or surname steps wins returns exactly that
pick of its candidate list. -/
theorem c6_tie_break_every_step (manual : List (Str × Nat))
    (players : List CanonicalPlayer) (closeMatch : Str → Option Str)
    (displayLookup : Nat → Option Str) (name norm : Str) :
    (∀ aliasTab, resolve_player_id_gh aliasTab manual players closeMatch
        displayLookup name =
      resolve_from_gh manual players closeMatch displayLookup name
        (workingNorm _normalize_name_gh aliasTab name)) ∧
    (∀ cs : List CanonicalPlayer, pickCandidate cs = specPickFirstActive cs) ∧
    (∀ cs p, List.lookup norm manual = none →
      List.lookup norm (buildIndexWith _normalize_name_gh players) = some cs →
      specPickFirstActive cs = some p →
      resolve_from_gh manual players closeMatch displayLookup name norm =
        some (p.id, p.full_name)) ∧
    (∀ key cs p, List.lookup norm manual = none →
      pickCandidate ((List.lookup norm
        (buildIndexWith _normalize_name_gh players)).getD []) = none →
      closeMatch norm = some key →
      List.lookup key (buildIndexWith _normalize_name_gh players) = some cs →
      specPickFirstActive cs = some p →
      resolve_from_gh manual players closeMatch displayLookup name norm =
        some (p.id, p.full_name)) ∧
    (∀ lastTok p, List.lookup norm manual = none →
      pickCandidate ((List.lookup norm
        (buildIndexWith _normalize_name_gh players)).getD []) = none →
      closeMatch norm = none →
      (pySplit norm).getLast? = some lastTok →
      specPickFirstActive (players.filter (fun q =>
          List.isSuffixOf (' ' :: lastTok) (_normalize_name_gh q.full_name)))
        = some p →
      resolve_from_gh manual players closeMatch displayLookup name norm =
        some (p.id, p.full_name)) := by
  refine ⟨fun aliasTab => rfl, pickCandidate_eq_spec, ?_, ?_, ?_⟩
  · intro cs p hman hcs hpick
    rw [← pickCandidate_eq_spec] at hpick
    simp [resolve_from_gh, hman, hcs, hpick]
  · intro key cs p hman hexact hfuzzy hkey hpick
    rw [← pickCandidate_eq_spec] at hpick
    simp [resolve_from_gh, hman, hexact, hfuzzy, hkey, hpick]
  · intro lastTok p hman hexact hfuzzy htok hpick
    rw [← pickCandidate_eq_spec] at hpick
    simp [resolve_from_gh, hman, hexact, hfuzzy, htok, hpick]

/-- Witness for C6: two roster entries share the normalized name; the first
is inactive, the second active — the exact step returns the active one. -/
theorem c6_witness :
    resolve_player_id_gh [] []
        [⟨1, "Joel Embiid".toList, false⟩, ⟨2, "Joel Embiid".toList, true⟩]
        (fun _ => none) (fun _ => none) "Joel Embiid".toList =
      some (2, "Joel Embiid".toList) := by
  have h := c6_tie_break_every_step []
    [⟨1, "Joel Embiid".toList, false⟩, ⟨2, "Joel Embiid".toList, true⟩]
    (fun _ => none) (fun _ => none) "Joel Embiid".toList "joel embiid".toList
  rw [h.1 [],
    (by decide : workingNorm _normalize_name_gh [] "Joel Embiid".toList
      = "joel embiid".toList)]
  exact h.2.2.1
    [⟨1, "Joel Embiid".toList, false⟩, ⟨2, "Joel Embiid".toList, true⟩]
    ⟨2, "Joel Embiid".toList, true⟩ (by decide) (by decide) (by decide)

/-- C1 (amended): in the `NBA Github.py` variant of `resolve_player_id`,
when the manual, exact and fuzzy steps all yield no candidate for the
working value, resolution takes the last whitespace-delimited token of the
working value and selects every player whose normalized full name ends with
a space followed by that token; NotFound is returned only when that set is
empty (`pickCandidate cs = none ↔ cs = []`) or the working value has no
tokens.  (The `collect.py` variant has no such step — see the
counterexample.) -/
theorem c1_surname_fallback_gh (aliasTab : List (Str × Str))
    (manual : List (Str × Nat)) (players : List CanonicalPlayer)
    (closeMatch : Str → Option Str) (displayLookup : Nat → Option Str)
    (name w : Str) (hw : w = workingNorm _normalize_name_gh aliasTab name)
    (hman : List.lookup w manual = none)
    (hexact : pickCandidate ((List.lookup w
      (buildIndexWith _normalize_name_gh players)).getD []) = none)
    (hfuzzy : closeMatch w = none) :
    (resolve_player_id_gh aliasTab manual players closeMatch displayLookup
        name =
      match (pySplit w).getLast? with
      | some lastTok =>
        (pickCandidate (players.filter (fun q =>
          List.isSuffixOf (' ' :: lastTok)
            (_normalize_name_gh q.full_name)))).map
          (fun p => (p.id, p.full_name))
      | none => none) ∧
    (∀ cs : List CanonicalPlayer, pickCandidate cs = none ↔ cs = []) := by
  refine ⟨?_, pickCandidate_eq_none⟩
  subst hw
  show resolve_from_gh manual players closeMatch displayLookup name
      (workingNorm _normalize_name_gh aliasTab name) = _
  simp only [resolve_from_gh, hman, hexact, hfuzzy]
  cases h1 : (pySplit
      (workingNorm _normalize_name_gh aliasTab name)).getLast? with
  | none => rfl
  | some lastTok =>
    cases h2 : pickCandidate (players.filter (fun q =>
        List.isSuffixOf (' ' :: lastTok)
          (_normalize_name_gh q.full_name))) with
    | none => simp [h2]
    | some p => simp [h2]

/-- Witness for the amended C1: "Xqz Embiid" fails manual/exact/fuzzy but
resolves to Joel Embiid through the surname fallback of the
`NBA Github.py` variant. -/
theorem c1_witness :
    resolve_player_id_gh ALIAS_OVERRIDES MANUAL_PLAYER_IDS
        [⟨203954, "Joel Embiid".toList, true⟩] (fun _ => none) (fun _ => none)
        "Xqz Embiid".toList = some (203954, "Joel Embiid".toList) := by
  have h := (c1_surname_fallback_gh ALIAS_OVERRIDES MANUAL_PLAYER_IDS
    [⟨203954, "Joel Embiid".toList, true⟩] (fun _ => none) (fun _ => none)
    "Xqz Embiid".toList
    (workingNorm _normalize_name_gh ALIAS_OVERRIDES "Xqz Embiid".toList)
    rfl (by decide) (by decide) rfl).1
  rw [h]
  decide

/-- C1 counterexample: `collect.py`'s `resolve_player_id` has no surname
fallback.  For raw name "Xqz Embiid" against a roster containing
"Joel Embiid", the alias, manual and exact steps yield nothing and the
fuzzy matcher finds no close match (the difflib ratio of "xqz embiid"
vs. "joel embiid" is 2·7/21 ≈ 0.667 < 0.82 — the matching blocks cover only
" embiid" — so `get_close_matches(..., cutoff=0.82)` returns `[]`, modelled
by the oracle `fun _ => none`); the surname candidate set is nonempty
("joel embiid" ends in " embiid"), yet resolve returns NotFound instead of
selecting from it. -/
theorem c1_counterexample_collect_no_surname :
    resolve_player_id ALIAS_OVERRIDES MANUAL_PLAYER_IDS
        [⟨203954, "Joel Embiid".toList, true⟩] (fun _ => none)
        "Xqz Embiid".toList = none ∧
      ([⟨203954, "Joel Embiid".toList, true⟩] : List CanonicalPlayer).filter
          (fun q => List.isSuffixOf (' ' :: "embiid".toList)
            (_normalize_name q.full_name)) ≠ [] ∧
      (pySplit (workingNorm _normalize_name ALIAS_OVERRIDES
          "Xqz Embiid".toList)).getLast? = some "embiid".toList :=
  ⟨by decide, by decide, by decide⟩

/-! ## Helper lemmas: character classes and the suffix pattern -/

theorem pyLower_idem (c : Char) : pyLower (pyLower c) = pyLower c := by
  unfold pyLower
  cases h : List.lookup c lowerPairs with
  | none => simp [h]
  | some r =>
    have hall : ∀ p ∈ lowerPairs, List.lookup p.2 lowerPairs = none := by decide
    have hr := hall (c, r) (lookup_mem h)
    simp [h, hr]

theorem space_word_disjoint (c : Char) :
    ¬(isSpaceChar c = true ∧ isWordChar c = true) := by
  unfold isSpaceChar isWordChar
  intro hand
  obtain ⟨h1, h2⟩ := hand
  simp only [Bool.or_eq_true, Bool.and_eq_true, decide_eq_true_eq, beq_iff_eq,
    bne_iff_ne, ne_eq] at h1 h2
  omega

theorem not_word_of_space {c : Char} (h : isSpaceChar c = true) :
    isWordChar c = false := by
  cases hw : isWordChar c
  · rfl
  · exact absurd ⟨h, hw⟩ (space_word_disjoint c)

theorem not_space_of_word {c : Char} (h : isWordChar c = true) :
    isSpaceChar c = false := by
  cases hs : isSpaceChar c
  · rfl
  · exact absurd ⟨hs, h⟩ (space_word_disjoint c)

theorem dropWhile_head_not {α : Type} {p : α → Bool} :
    ∀ {l : List α} {d : α} {ds : List α},
      l.dropWhile p = d :: ds → p d = false := by
  intro l
  induction l with
  | nil => intro d ds h; simp at h
  | cons c cs ih =>
    intro d ds h
    rw [List.dropWhile_cons] at h
    split at h
    · exact ih h
    · next hc =>
      cases h
      simpa using hc

theorem boundaryOk_eq (l : Str) :
    boundaryOk l = (l.takeWhile isWordChar).isEmpty := by
  cases l with
  | nil => rfl
  | cons c cs =>
    unfold boundaryOk
    cases h : isWordChar c
    · simp [List.takeWhile_cons, h]
    · simp [List.takeWhile_cons, h]

theorem alt_cond_iff : ∀ (a : Str), a ≠ [] → a.all isWordChar = true →
    ∀ l : Str,
      ((a.isPrefixOf l && boundaryOk (l.drop a.length)) = true ↔
        a = l.takeWhile isWordChar) := by
  intro a
  induction a with
  | nil => intro h; exact absurd rfl h
  | cons x a' ih =>
    intro _ ha l
    have hx : isWordChar x = true := by
      rw [List.all_cons, Bool.and_eq_true] at ha
      exact ha.1
    have ha' : a'.all isWordChar = true := by
      rw [List.all_cons, Bool.and_eq_true] at ha
      exact ha.2
    cases l with
    | nil =>
      constructor
      · intro h; simp [List.isPrefixOf] at h
      · intro h; simp [List.takeWhile_nil] at h
    | cons c cs =>
      by_cases hxc : x = c
      · subst hxc
        rw [List.takeWhile_cons, if_pos hx]
        have hpre : (x :: a').isPrefixOf (x :: cs) = a'.isPrefixOf cs := by
          simp [List.isPrefixOf]
        have hdrop : (x :: cs).drop (x :: a').length = cs.drop a'.length := by
          simp [List.length_cons]
        rw [Bool.and_eq_true] at *
        cases a' with
        | nil =>
          constructor
          · intro h
            obtain ⟨_, hb⟩ := h
            have hb' : boundaryOk cs = true := by simpa using hb
            rw [boundaryOk_eq, List.isEmpty_iff] at hb'
            rw [hb']
          · intro h
            have : cs.takeWhile isWordChar = [] := by
              have := congrArg List.tail h
              simpa using this.symm
            refine ⟨by simp [List.isPrefixOf], ?_⟩
            show boundaryOk ((x :: cs).drop 1) = true
            rw [List.drop_one, List.tail_cons, boundaryOk_eq, this]
            rfl
        | cons y a'' =>
          have hne : (y :: a'') ≠ [] := by simp
          constructor
          · intro h
            obtain ⟨hp, hb⟩ := h
            rw [hpre] at hp
            rw [hdrop] at hb
            have := (ih hne ha' cs).1 (by rw [Bool.and_eq_true]; exact ⟨hp, hb⟩)
            rw [this]
          · intro h
            have heq : (y :: a'') = cs.takeWhile isWordChar := by
              have := congrArg List.tail h
              simpa using this
            have := (ih hne ha' cs).2 heq
            rw [Bool.and_eq_true] at this
            exact ⟨by rw [hpre]; exact this.1, by rw [hdrop]; exact this.2⟩
      · constructor
        · intro h
          rw [Bool.and_eq_true] at h
          have := h.1
          simp [List.isPrefixOf_cons₂, hxc] at this
        · intro h
          rw [List.takeWhile_cons] at h
          split at h
          · have := congrArg List.head? h
            simp at this
            exact absurd this hxc
          · simp at h

theorem tryAlt_congr_aux (alts : List Str)
    (halts : ∀ a ∈ alts, a ≠ [] ∧ a.all isWordChar = true) :
    ∀ {l l' : Str}, l.takeWhile isWordChar = l'.takeWhile isWordChar →
      tryAlt alts l = tryAlt alts l' := by
  induction alts with
  | nil => intro l l' _; rfl
  | cons a rest ih =>
    intro l l' h
    obtain ⟨h1, h2⟩ := halts a (List.mem_cons_self a rest)
    have e1 := alt_cond_iff a h1 h2 l
    have e2 := alt_cond_iff a h1 h2 l'
    unfold tryAlt
    by_cases hc : a = l.takeWhile isWordChar
    · rw [if_pos (e1.2 hc), if_pos (e2.2 (h ▸ hc))]
    · rw [if_neg (fun hcond => hc (e1.1 hcond)),
        if_neg (fun hcond => hc (h.symm ▸ e2.1 hcond))]
      exact ih (fun b hb => halts b (List.mem_cons_of_mem a hb)) h

theorem suffixAlts_wf : ∀ a ∈ suffixAlts, a ≠ [] ∧ a.all isWordChar = true := by
  decide

theorem tryAlt_congr {l l' : Str}
    (h : l.takeWhile isWordChar = l'.takeWhile isWordChar) :
    tryAlt suffixAlts l = tryAlt suffixAlts l' :=
  tryAlt_congr_aux suffixAlts suffixAlts_wf h

theorem drop_takeWhile_length {α : Type} (p : α → Bool) (l : List α) :
    List.drop (l.takeWhile p).length l = l.dropWhile p := by
  induction l with
  | nil => rfl
  | cons c cs ih =>
    rw [List.takeWhile_cons, List.dropWhile_cons]
    cases h : p c
    · simp [h]
    · simp only [h, if_true]
      rw [List.length_cons, List.drop_succ_cons]
      exact ih

theorem tryAlt_some_aux (alts : List Str)
    (halts : ∀ a ∈ alts, a ≠ [] ∧ a.all isWordChar = true) :
    ∀ {l : Str} {n : Nat}, tryAlt alts l = some n →
      1 ≤ n ∧ List.drop n l = l.dropWhile isWordChar := by
  induction alts with
  | nil => intro l n h; simp [tryAlt] at h
  | cons a rest ih =>
    intro l n h
    obtain ⟨h1, h2⟩ := halts a (List.mem_cons_self a rest)
    unfold tryAlt at h
    split at h
    · next hcond =>
      cases h
      have ha := (alt_cond_iff a h1 h2 l).1 hcond
      constructor
      · have : a.length ≠ 0 := by
          intro h0
          exact h1 (List.length_eq_zero.1 h0)
        omega
      · rw [ha]
        exact drop_takeWhile_length isWordChar l
    · exact ih (fun b hb => halts b (List.mem_cons_of_mem a hb)) h

theorem tryAlt_some {l : Str} {n : Nat} (h : tryAlt suffixAlts l = some n) :
    1 ≤ n ∧ List.drop n l = l.dropWhile isWordChar :=
  tryAlt_some_aux suffixAlts suffixAlts_wf h

theorem subSuffixGo_nil (fuel : Nat) (p : Bool) : subSuffixGo fuel p [] = [] := by
  cases fuel <;> rfl

theorem subSuffixGo_sublist : ∀ (fuel : Nat) (p : Bool) (l : Str),
    (subSuffixGo fuel p l).Sublist l := by
  intro fuel
  induction fuel with
  | zero => intro p l; exact List.Sublist.refl l
  | succ f ih =>
    intro p l
    cases l with
    | nil => simp [subSuffixGo]
    | cons c cs =>
      simp only [subSuffixGo]
      split
      · cases htry : tryAlt suffixAlts (c :: cs) with
        | some n =>
          exact (ih true _).trans (List.drop_sublist n (c :: cs))
        | none =>
          exact List.Sublist.cons₂ c (ih true cs)
      · exact List.Sublist.cons₂ c (ih (isWordChar c) cs)

theorem sublist_all {P : Char → Bool} {l l' : Str} (hs : l'.Sublist l)
    (h : l.all P = true) : l'.all P = true := by
  rw [List.all_eq_true] at h ⊢
  exact fun c hc => h c (hs.subset hc)

theorem takeWhile_subSuffixGo_true : ∀ (fuel : Nat) (l : Str),
    (subSuffixGo fuel true l).takeWhile isWordChar = l.takeWhile isWordChar := by
  intro fuel
  induction fuel with
  | zero => intro l; rfl
  | succ f ih =>
    intro l
    cases l with
    | nil => rfl
    | cons c cs =>
      have hred : subSuffixGo (f + 1) true (c :: cs)
          = c :: subSuffixGo f (isWordChar c) cs := by
        simp [subSuffixGo]
      rw [hred]
      cases hw : isWordChar c
      · simp [List.takeWhile_cons, hw]
      · rw [List.takeWhile_cons, List.takeWhile_cons, hw]
        simp only [if_true]
        rw [ih cs]

theorem takeWhile_collapseGo_false : ∀ l : Str,
    (collapseGo false l).takeWhile isWordChar = l.takeWhile isWordChar := by
  intro l
  induction l with
  | nil => rfl
  | cons c cs ih =>
    cases hs : isSpaceChar c
    · have hred : collapseGo false (c :: cs) = c :: collapseGo false cs := by
        simp [collapseGo, hs]
      rw [hred]
      cases hw : isWordChar c
      · simp [List.takeWhile_cons, hw]
      · rw [List.takeWhile_cons, List.takeWhile_cons, hw]
        simp only [if_true]
        rw [ih]
    · have hred : collapseGo false (c :: cs) = ' ' :: collapseGo true cs := by
        simp [collapseGo, hs]
      rw [hred]
      have hw : isWordChar c = false := not_word_of_space hs
      have hwsp : isWordChar ' ' = false := by decide
      rw [List.takeWhile_cons, List.takeWhile_cons, hw, hwsp]
      simp

theorem takeWhile_append_nonword {d : Char} (hd : isWordChar d = false) :
    ∀ t : Str, (t ++ [d]).takeWhile isWordChar = t.takeWhile isWordChar := by
  intro t
  induction t with
  | nil => simp [List.takeWhile_cons, hd]
  | cons c t' ih =>
    rw [List.cons_append, List.takeWhile_cons, List.takeWhile_cons]
    cases hw : isWordChar c
    · rfl
    · simp only [if_true]
      rw [ih]

theorem noSuffixTok_nonword {d : Char} (hd : isWordChar d = false) (p : Bool)
    (t : Str) : noSuffixTok p (d :: t) = noSuffixTok false t := by
  show (((p || !isWordChar d) || (tryAlt suffixAlts (d :: t)).isNone) &&
      noSuffixTok (isWordChar d) t) = noSuffixTok false t
  rw [hd]
  simp

theorem subSuffixGo_of_noSuffixTok : ∀ (fuel : Nat) (p : Bool) (l : Str),
    noSuffixTok p l = true → subSuffixGo fuel p l = l := by
  intro fuel
  induction fuel with
  | zero => intro p l _; rfl
  | succ f ih =>
    intro p l h
    cases l with
    | nil => rfl
    | cons c cs =>
      unfold noSuffixTok at h
      rw [Bool.and_eq_true] at h
      obtain ⟨h1, h2⟩ := h
      simp only [subSuffixGo]
      by_cases hp : (!p && isWordChar c) = true
      · rw [if_pos hp]
        have hp' : p = false ∧ isWordChar c = true := by simpa using hp
        obtain ⟨hp1, hp2⟩ := hp'
        have htry : tryAlt suffixAlts (c :: cs) = none := by
          rw [hp1, hp2] at h1
          simpa using h1
        rw [htry]
        show c :: subSuffixGo f true cs = c :: cs
        rw [hp2] at h2
        rw [ih true cs h2]
      · rw [if_neg hp]
        rw [ih (isWordChar c) cs h2]

theorem subSuffixGo_true_cons_nonword {d : Char} {ds : Str} (fuel : Nat)
    (hd : isWordChar d = false) :
    ∃ t, subSuffixGo fuel true (d :: ds) = d :: t := by
  cases fuel with
  | zero => exact ⟨ds, rfl⟩
  | succ f =>
    refine ⟨subSuffixGo f (isWordChar d) ds, ?_⟩
    simp [subSuffixGo]

theorem noSuffixTok_subSuffixGo : ∀ (fuel : Nat) (p : Bool) (l : Str),
    l.length ≤ fuel → noSuffixTok p (subSuffixGo fuel p l) = true := by
  intro fuel
  induction fuel with
  | zero =>
    intro p l h
    have hl : l = [] := List.length_eq_zero.1 (Nat.le_zero.1 h)
    subst hl
    rfl
  | succ f ih =>
    intro p l h
    cases l with
    | nil => rw [subSuffixGo_nil]; rfl
    | cons c cs =>
      simp only [subSuffixGo]
      by_cases hp : (!p && isWordChar c) = true
      · rw [if_pos hp]
        have hp2 : isWordChar c = true := by
          have hp' : p = false ∧ isWordChar c = true := by simpa using hp
          exact hp'.2
        cases htry : tryAlt suffixAlts (c :: cs) with
        | some n =>
          obtain ⟨hn1, hdrop⟩ := tryAlt_some htry
          have hlen : (List.drop n (c :: cs)).length ≤ f := by
            rw [List.length_drop]
            simp only [List.length_cons] at h ⊢
            omega
          show noSuffixTok p (subSuffixGo f true (List.drop n (c :: cs))) = true
          rw [hdrop] at hlen ⊢
          cases hrest : (c :: cs).dropWhile isWordChar with
          | nil =>
            rw [subSuffixGo_nil]
            rfl
          | cons d ds =>
            rw [hrest] at hlen
            have hd : isWordChar d = false := dropWhile_head_not hrest
            obtain ⟨t, ht⟩ := subSuffixGo_true_cons_nonword f hd
            have hres : noSuffixTok true (subSuffixGo f true (d :: ds)) = true :=
              ih true (d :: ds) hlen
            rw [ht] at hres ⊢
            rw [noSuffixTok_nonword hd p, ← noSuffixTok_nonword hd true]
            exact hres
        | none =>
          show noSuffixTok p (c :: subSuffixGo f true cs) = true
          have htail : noSuffixTok true (subSuffixGo f true cs) = true := by
            apply ih
            simp only [List.length_cons] at h
            omega
          unfold noSuffixTok
          rw [Bool.and_eq_true]
          constructor
          · have hcong : tryAlt suffixAlts (c :: subSuffixGo f true cs)
                = tryAlt suffixAlts (c :: cs) := by
              apply tryAlt_congr
              rw [List.takeWhile_cons, List.takeWhile_cons, hp2]
              simp only [if_true]
              rw [takeWhile_subSuffixGo_true]
            rw [hcong, htry]
            simp
          · rw [hp2]
            exact htail
      · rw [if_neg hp]
        have htail : noSuffixTok (isWordChar c)
            (subSuffixGo f (isWordChar c) cs) = true := by
          apply ih
          simp only [List.length_cons] at h
          omega
        unfold noSuffixTok
        rw [Bool.and_eq_true]
        constructor
        · cases hw : isWordChar c
          · simp
          · have hptrue : p = true := by
              cases hpp : p
              · exfalso; apply hp; simp [hw, hpp]
              · rfl
            rw [hptrue]
            simp
        · exact htail

theorem noSuffixTok_collapseGo : ∀ (l : Str) (p b : Bool),
    noSuffixTok p l = true → (b = true → p = false) →
    noSuffixTok p (collapseGo b l) = true := by
  intro l
  induction l with
  | nil => intro p b _ _; cases b <;> rfl
  | cons c cs ih =>
    intro p b h hside
    have h' : (((p || !isWordChar c) ||
        (tryAlt suffixAlts (c :: cs)).isNone) &&
          noSuffixTok (isWordChar c) cs) = true := h
    rw [Bool.and_eq_true] at h'
    obtain ⟨h1, h2⟩ := h'
    cases hs : isSpaceChar c
    · have hred : collapseGo b (c :: cs) = c :: collapseGo false cs := by
        cases b <;> simp [collapseGo, hs]
      rw [hred]
      show (((p || !isWordChar c) ||
          (tryAlt suffixAlts (c :: collapseGo false cs)).isNone) &&
            noSuffixTok (isWordChar c) (collapseGo false cs)) = true
      rw [Bool.and_eq_true]
      constructor
      · cases hw : isWordChar c
        · simp
        · have hcong : tryAlt suffixAlts (c :: collapseGo false cs)
              = tryAlt suffixAlts (c :: cs) := by
            apply tryAlt_congr
            rw [List.takeWhile_cons, List.takeWhile_cons, hw]
            simp only [if_true]
            rw [takeWhile_collapseGo_false]
          rw [hcong]
          rw [hw] at h1
          exact h1
      · exact ih (isWordChar c) false h2 (by simp)
    · have hword : isWordChar c = false := not_word_of_space hs
      rw [hword] at h2
      cases b
      · have hred : collapseGo false (c :: cs) = ' ' :: collapseGo true cs := by
          simp [collapseGo, hs]
        rw [hred]
        have hwsp : isWordChar ' ' = false := by decide
        rw [noSuffixTok_nonword hwsp]
        exact ih false true h2 (fun _ => rfl)
      · have hp : p = false := hside rfl
        have hred : collapseGo true (c :: cs) = collapseGo true cs := by
          simp [collapseGo, hs]
        rw [hred, hp]
        exact ih false true h2 (fun _ => rfl)

theorem noSuffixTok_dropWhile_space {l : Str}
    (h : noSuffixTok false l = true) :
    noSuffixTok false (l.dropWhile isSpaceChar) = true := by
  induction l with
  | nil => exact h
  | cons c cs ih =>
    rw [List.dropWhile_cons]
    cases hs : isSpaceChar c
    · simp only [Bool.false_eq_true, if_false]
      exact h
    · simp only [if_true]
      apply ih
      have hword : isWordChar c = false := not_word_of_space hs
      rw [noSuffixTok_nonword hword] at h
      exact h

theorem noSuffixTok_append_nonword {d : Char} (hd : isWordChar d = false) :
    ∀ (l : Str) (p : Bool), noSuffixTok p (l ++ [d]) = noSuffixTok p l := by
  intro l
  induction l with
  | nil =>
    intro p
    show noSuffixTok p [d] = noSuffixTok p []
    rw [noSuffixTok_nonword hd]
    rfl
  | cons c t ih =>
    intro p
    show noSuffixTok p (c :: (t ++ [d])) = noSuffixTok p (c :: t)
    have e1 : noSuffixTok p (c :: (t ++ [d])) =
        (((p || !isWordChar c) ||
          (tryAlt suffixAlts (c :: (t ++ [d]))).isNone) &&
            noSuffixTok (isWordChar c) (t ++ [d])) := rfl
    have e2 : noSuffixTok p (c :: t) =
        (((p || !isWordChar c) ||
          (tryAlt suffixAlts (c :: t)).isNone) &&
            noSuffixTok (isWordChar c) t) := rfl
    rw [e1, e2, ih (isWordChar c)]
    have hcong : tryAlt suffixAlts (c :: (t ++ [d]))
        = tryAlt suffixAlts (c :: t) := by
      apply tryAlt_congr
      show ((c :: t) ++ [d]).takeWhile isWordChar = _
      rw [takeWhile_append_nonword hd]
    rw [hcong]

theorem rdropWhile_append_rtakeWhile (p : Char → Bool) (l : Str) :
    l.rdropWhile p ++ l.rtakeWhile p = l := by
  unfold List.rdropWhile List.rtakeWhile
  rw [← List.reverse_append, List.takeWhile_append_dropWhile,
    List.reverse_reverse]

theorem noSuffixTok_append_all_nonword :
    ∀ (s : Str), (∀ d ∈ s, isWordChar d = false) → ∀ (m : Str) (p : Bool),
      noSuffixTok p (m ++ s) = noSuffixTok p m := by
  intro s
  induction s using List.reverseRecOn with
  | nil => simp
  | append_singleton s' d ih =>
    intro hall m p
    rw [← List.append_assoc]
    rw [noSuffixTok_append_nonword (hall d (by simp)) (m ++ s')]
    exact ih (fun x hx => hall x (by simp [hx])) m p

theorem noSuffixTok_rdropWhile_space {l : Str} (p : Bool)
    (h : noSuffixTok p l = true) :
    noSuffixTok p (l.rdropWhile isSpaceChar) = true := by
  have hsp : ∀ d ∈ l.rtakeWhile isSpaceChar, isWordChar d = false :=
    fun d hd => not_word_of_space (List.mem_rtakeWhile_imp hd)
  have key := noSuffixTok_append_all_nonword (l.rtakeWhile isSpaceChar) hsp
    (l.rdropWhile isSpaceChar) p
  rw [rdropWhile_append_rtakeWhile] at key
  rw [← key]
  exact h

/-! ## Helper lemmas: whitespace-run structure -/

theorem noTwoGo_collapseGo : ∀ l : Str,
    (∀ prev, noTwoGo prev (collapseGo true l) = true) ∧
      noTwoGo false (collapseGo false l) = true := by
  intro l
  induction l with
  | nil => constructor <;> simp [collapseGo, noTwoGo]
  | cons c cs ih =>
    cases hs : isSpaceChar c
    · have hred : ∀ b, collapseGo b (c :: cs) = c :: collapseGo false cs := by
        intro b; cases b <;> simp [collapseGo, hs]
      constructor
      · intro prev
        rw [hred true]
        show (!(prev && isSpaceChar c) && noTwoGo (isSpaceChar c)
          (collapseGo false cs)) = true
        rw [hs]
        simpa using ih.2
      · rw [hred false]
        show (!(false && isSpaceChar c) && noTwoGo (isSpaceChar c)
          (collapseGo false cs)) = true
        rw [hs]
        simpa using ih.2
    · constructor
      · intro prev
        have hred : collapseGo true (c :: cs) = collapseGo true cs := by
          simp [collapseGo, hs]
        rw [hred]
        exact ih.1 prev
      · have hred : collapseGo false (c :: cs) = ' ' :: collapseGo true cs := by
          simp [collapseGo, hs]
        rw [hred]
        show (!(false && isSpaceChar ' ') &&
          noTwoGo (isSpaceChar ' ') (collapseGo true cs)) = true
        have : isSpaceChar ' ' = true := by decide
        rw [this]
        simpa using ih.1 true

theorem noTwoGo_mono {l : Str} (h : noTwoGo true l = true) :
    noTwoGo false l = true := by
  cases l with
  | nil => rfl
  | cons c cs =>
    have h' : (!(true && isSpaceChar c) && noTwoGo (isSpaceChar c) cs) = true := h
    show (!(false && isSpaceChar c) && noTwoGo (isSpaceChar c) cs) = true
    rw [Bool.and_eq_true] at h' ⊢
    exact ⟨by simp, h'.2⟩

theorem noTwoGo_dropWhile_space {l : Str} (h : noTwoGo false l = true) :
    noTwoGo false (l.dropWhile isSpaceChar) = true := by
  induction l with
  | nil => exact h
  | cons c cs ih =>
    rw [List.dropWhile_cons]
    have h' : (!(false && isSpaceChar c) && noTwoGo (isSpaceChar c) cs) = true := h
    rw [Bool.and_eq_true] at h'
    cases hs : isSpaceChar c
    · simp only [Bool.false_eq_true, if_false]
      exact h
    · simp only [if_true]
      apply ih
      rw [hs] at h'
      exact noTwoGo_mono h'.2

theorem noTwoGo_prefix : ∀ (m s : Str) (p : Bool),
    noTwoGo p (m ++ s) = true → noTwoGo p m = true := by
  intro m
  induction m with
  | nil => intro s p _; rfl
  | cons c t ih =>
    intro s p h
    have h' : (!(p && isSpaceChar c) && noTwoGo (isSpaceChar c) (t ++ s))
        = true := h
    rw [Bool.and_eq_true] at h'
    show (!(p && isSpaceChar c) && noTwoGo (isSpaceChar c) t) = true
    rw [Bool.and_eq_true]
    exact ⟨h'.1, ih s (isSpaceChar c) h'.2⟩

theorem noTwoGo_rdropWhile_space {l : Str} (h : noTwoGo false l = true) :
    noTwoGo false (l.rdropWhile isSpaceChar) = true := by
  apply noTwoGo_prefix _ (l.rtakeWhile isSpaceChar)
  rw [rdropWhile_append_rtakeWhile]
  exact h

theorem collapseGo_fix : ∀ (l : Str) (b : Bool),
    (∀ c ∈ l, isSpaceChar c = true → c = ' ') → noTwoGo b l = true →
    collapseGo b l = l := by
  intro l
  induction l with
  | nil => intro b _ _; rfl
  | cons c cs ih =>
    intro b hall hnt
    have h' : (!(b && isSpaceChar c) && noTwoGo (isSpaceChar c) cs) = true := hnt
    rw [Bool.and_eq_true] at h'
    obtain ⟨h1, h2⟩ := h'
    cases hs : isSpaceChar c
    · have hred : collapseGo b (c :: cs) = c :: collapseGo false cs := by
        cases b <;> simp [collapseGo, hs]
      rw [hred]
      rw [hs] at h2
      rw [ih false (fun x hx => hall x (List.mem_cons_of_mem c hx)) h2]
    · have hb : b = false := by
        cases hbb : b
        · rfl
        · rw [hbb, hs] at h1
          simp at h1
      subst hb
      have hc : c = ' ' := hall c (List.mem_cons_self c cs) hs
      subst hc
      have hred : collapseGo false (' ' :: cs) = ' ' :: collapseGo true cs := by
        simp [collapseGo, hs]
      rw [hred]
      rw [hs] at h2
      rw [ih true (fun x hx => hall x (List.mem_cons_of_mem _ hx)) h2]

theorem stripList_idem (l : Str) : stripList (stripList l) = stripList l := by
  unfold stripList
  set m := l.dropWhile isSpaceChar with hm
  have h1 : (m.rdropWhile isSpaceChar).dropWhile isSpaceChar
      = m.rdropWhile isSpaceChar := by
    cases hr : m.rdropWhile isSpaceChar with
    | nil => simp
    | cons d ds =>
      have hpre := List.rdropWhile_prefix isSpaceChar m
      rw [hr] at hpre
      obtain ⟨t, ht⟩ := hpre
      have hmd : l.dropWhile isSpaceChar = d :: (ds ++ t) := by
        rw [← hm]
        rw [← ht]
        simp
      have hd : isSpaceChar d = false := dropWhile_head_not hmd
      rw [List.dropWhile_cons, hd]
      simp
  rw [h1, List.rdropWhile_idempotent]

/-! ## Helper lemmas: character-map fixedness -/

theorem replQuotes_cases (c : Char) :
    replQuotes c = ' ' ∨ replQuotes c = '\'' ∨ replQuotes c = c := by
  unfold replQuotes
  split
  · left; rfl
  · split
    · right; left; rfl
    · split
      · left; rfl
      · right; right; rfl

theorem replPunct_cases (c : Char) : replPunct c = ' ' ∨ replPunct c = c := by
  unfold replPunct
  split
  · left; rfl
  · right; rfl

theorem replHyphen_cases (c : Char) : replHyphen c = ' ' ∨ replHyphen c = c := by
  unfold replHyphen
  split
  · left; rfl
  · right; rfl

theorem mapFixed_after_maps (c : Char) :
    mapFixed (replHyphen (replPunct (replQuotes (pyLower c)))) = true := by
  rcases replHyphen_cases (replPunct (replQuotes (pyLower c))) with h4 | h4
  · rw [h4]; decide
  · rw [h4]
    rcases replPunct_cases (replQuotes (pyLower c)) with h3 | h3
    · rw [h3]; decide
    · rw [h3]
      rcases replQuotes_cases (pyLower c) with h2 | h2 | h2
      · rw [h2]; decide
      · rw [h2]; decide
      · rw [h2]
        have h3' : replPunct (pyLower c) = pyLower c := by
          rw [h2] at h3; exact h3
        have h4' : replHyphen (pyLower c) = pyLower c := by
          rw [h3, h2] at h4; exact h4
        unfold mapFixed
        rw [pyLower_idem, h2, h3', h4']
        simp

theorem map_fix {f : Char → Char} : ∀ {l : Str},
    (∀ c ∈ l, f c = c) → l.map f = l := by
  intro l
  induction l with
  | nil => intro _; rfl
  | cons c cs ih =>
    intro h
    rw [List.map_cons, h c (List.mem_cons_self c cs),
      ih (fun x hx => h x (List.mem_cons_of_mem c hx))]

theorem collapseGo_all {P : Char → Bool} (hP : P ' ' = true) :
    ∀ (l : Str) (b : Bool), l.all P = true → (collapseGo b l).all P = true := by
  intro l
  induction l with
  | nil => intro b _; cases b <;> rfl
  | cons c cs ih =>
    intro b h
    rw [List.all_cons, Bool.and_eq_true] at h
    cases hs : isSpaceChar c
    · have hred : collapseGo b (c :: cs) = c :: collapseGo false cs := by
        cases b <;> simp [collapseGo, hs]
      rw [hred, List.all_cons, Bool.and_eq_true]
      exact ⟨h.1, ih false h.2⟩
    · cases b
      · have hred : collapseGo false (c :: cs) = ' ' :: collapseGo true cs := by
          simp [collapseGo, hs]
        rw [hred, List.all_cons, Bool.and_eq_true]
        exact ⟨hP, ih true h.2⟩
      · have hred : collapseGo true (c :: cs) = collapseGo true cs := by
          simp [collapseGo, hs]
        rw [hred]
        exact ih true h.2

theorem collapseGo_space_single : ∀ (l : Str) (b : Bool),
    (collapseGo b l).all (fun c => !isSpaceChar c || c == ' ') = true := by
  intro l
  induction l with
  | nil => intro b; cases b <;> rfl
  | cons c cs ih =>
    intro b
    cases hs : isSpaceChar c
    · have hred : collapseGo b (c :: cs) = c :: collapseGo false cs := by
        cases b <;> simp [collapseGo, hs]
      rw [hred, List.all_cons, Bool.and_eq_true]
      refine ⟨?_, ih false⟩
      rw [hs]
      simp
    · cases b
      · have hred : collapseGo false (c :: cs) = ' ' :: collapseGo true cs := by
          simp [collapseGo, hs]
        rw [hred, List.all_cons, Bool.and_eq_true]
        exact ⟨by decide, ih true⟩
      · have hred : collapseGo true (c :: cs) = collapseGo true cs := by
          simp [collapseGo, hs]
        rw [hred]
        exact ih true

theorem stripList_all {P : Char → Bool} {l : Str} (h : l.all P = true) :
    (stripList l).all P = true := by
  unfold stripList
  apply sublist_all ((List.rdropWhile_prefix _ _).sublist)
  exact sublist_all (List.dropWhile_sublist _) h

theorem noSuffixTok_stripList {l : Str} (h : noSuffixTok false l = true) :
    noSuffixTok false (stripList l) = true :=
  noSuffixTok_rdropWhile_space false (noSuffixTok_dropWhile_space h)

theorem noTwoGo_stripList {l : Str} (h : noTwoGo false l = true) :
    noTwoGo false (stripList l) = true :=
  noTwoGo_rdropWhile_space (noTwoGo_dropWhile_space h)

theorem mapFixed_parts {c : Char} (h : mapFixed c = true) :
    pyLower c = c ∧ replQuotes c = c ∧ replPunct c = c ∧ replHyphen c = c := by
  simp only [mapFixed, Bool.and_eq_true, beq_iff_eq] at h
  exact ⟨h.1.1.1, h.1.1.2, h.1.2, h.2⟩

theorem normalize_components (x : Str) :
    (_normalize_name x).all mapFixed = true ∧
      (_normalize_name x).all (fun c => !isZeroWidth c) = true ∧
      (_normalize_name x).all (fun c => !isSpaceChar c || c == ' ') = true ∧
      noTwoGo false (_normalize_name x) = true ∧
      stripList (_normalize_name x) = _normalize_name x ∧
      noSuffixTok false (_normalize_name x) = true := by
  unfold _normalize_name normalizeWith
  set a5 := List.filter (fun c => !isZeroWidth c)
    (List.map replHyphen (List.map replPunct (List.map replQuotes
      (List.map pyLower (stripList x))))) with ha5
  have hmfix : a5.all mapFixed = true := by
    rw [ha5]
    apply sublist_all (List.filter_sublist _)
    rw [List.all_map, List.all_map, List.all_map, List.all_map,
      List.all_eq_true]
    intro c _
    simpa [Function.comp] using mapFixed_after_maps c
  have hzw : a5.all (fun c => !isZeroWidth c) = true := by
    rw [ha5, List.all_eq_true]
    intro c hc
    exact (List.mem_filter.1 hc).2
  set a7 := subSuffixes (collapseWS a5) with ha7
  have hmfix7 : a7.all mapFixed = true := by
    rw [ha7]
    exact sublist_all (subSuffixGo_sublist _ _ _)
      (collapseGo_all (by decide) a5 false hmfix)
  have hzw7 : a7.all (fun c => !isZeroWidth c) = true := by
    rw [ha7]
    exact sublist_all (subSuffixGo_sublist _ _ _)
      (collapseGo_all (by decide) a5 false hzw)
  have hnst7 : noSuffixTok false a7 = true := by
    rw [ha7]
    unfold subSuffixes
    exact noSuffixTok_subSuffixGo _ false _ (le_refl _)
  refine ⟨?_, ?_, ?_, ?_, ?_, ?_⟩
  · exact stripList_all (collapseGo_all (by decide) a7 false hmfix7)
  · exact stripList_all (collapseGo_all (by decide) a7 false hzw7)
  · exact stripList_all (collapseGo_space_single a7 false)
  · exact noTwoGo_stripList (noTwoGo_collapseGo a7).2
  · exact stripList_idem _
  · exact noSuffixTok_stripList
      (noSuffixTok_collapseGo a7 false false hnst7 (by simp))

theorem normalizeWith_fix {y : Str}
    (hmf : y.all mapFixed = true)
    (hzw : y.all (fun c => !isZeroWidth c) = true)
    (hss : y.all (fun c => !isSpaceChar c || c == ' ') = true)
    (hnt : noTwoGo false y = true)
    (hstrip : stripList y = y)
    (hnst : noSuffixTok false y = true) :
    _normalize_name y = y := by
  have hmf' := List.all_eq_true.1 hmf
  have e_low : y.map pyLower = y :=
    map_fix (fun c hc => (mapFixed_parts (hmf' c hc)).1)
  have e_q : y.map replQuotes = y :=
    map_fix (fun c hc => (mapFixed_parts (hmf' c hc)).2.1)
  have e_p : y.map replPunct = y :=
    map_fix (fun c hc => (mapFixed_parts (hmf' c hc)).2.2.1)
  have e_h : y.map replHyphen = y :=
    map_fix (fun c hc => (mapFixed_parts (hmf' c hc)).2.2.2)
  have e_f : List.filter (fun c => !isZeroWidth c) y = y :=
    List.filter_eq_self.2 (fun c hc => List.all_eq_true.1 hzw c hc)
  have e_col : collapseWS y = y := by
    unfold collapseWS
    apply collapseGo_fix y false ?_ hnt
    intro c hc hsp
    have h1 := List.all_eq_true.1 hss c hc
    rw [hsp] at h1
    simpa using h1
  have e_sub : subSuffixes y = y := by
    unfold subSuffixes
    exact subSuffixGo_of_noSuffixTok y.length false y hnst
  unfold _normalize_name normalizeWith
  rw [hstrip, e_low, e_q, e_p, e_h, e_f, e_col, e_sub, e_col, hstrip]

theorem pyLower_space (c : Char) : isSpaceChar (pyLower c) = isSpaceChar c := by
  unfold pyLower
  cases h : List.lookup c lowerPairs with
  | none => simp [h]
  | some r =>
    have hall : ∀ p ∈ lowerPairs,
        isSpaceChar p.1 = false ∧ isSpaceChar p.2 = false := by decide
    have h1 := hall (c, r) (lookup_mem h)
    simp [h, h1.1, h1.2]

theorem dropWhile_map_compat {f : Char → Char}
    (hf : ∀ c, isSpaceChar (f c) = isSpaceChar c) :
    ∀ l : Str, (l.map f).dropWhile isSpaceChar
      = (l.dropWhile isSpaceChar).map f := by
  intro l
  induction l with
  | nil => rfl
  | cons c cs ih =>
    rw [List.map_cons]
    cases hs : isSpaceChar c
    · simp [List.dropWhile_cons, hf, hs]
    · simp [List.dropWhile_cons, hf, hs, ih]

theorem stripList_map_compat {f : Char → Char}
    (hf : ∀ c, isSpaceChar (f c) = isSpaceChar c) (l : Str) :
    stripList (l.map f) = (stripList l).map f := by
  unfold stripList List.rdropWhile
  rw [dropWhile_map_compat hf l]
  rw [← List.map_reverse, dropWhile_map_compat hf, List.map_reverse]

/-- C4: `_normalize_name` is idempotent — `normalize (normalize x) =
normalize x` for every string — and insensitive to case (lowercasing the
input first does not change the result); in particular
`normalize "Jordan Poole Jr." = normalize "jordan poole"`, which also
exercises the punctuation and suffix-token insensitivity of the example. -/
theorem c4_normalize_idempotent :
    (∀ x : Str, _normalize_name (_normalize_name x) = _normalize_name x) ∧
      (∀ x : Str, _normalize_name (x.map pyLower) = _normalize_name x) ∧
      _normalize_name "Jordan Poole Jr.".toList
        = _normalize_name "jordan poole".toList := by
  refine ⟨?_, ?_, by decide⟩
  · intro x
    obtain ⟨h1, h2, h3, h4, h5, h6⟩ := normalize_components x
    exact normalizeWith_fix h1 h2 h3 h4 h5 h6
  · intro x
    have key : List.map pyLower (List.map pyLower (stripList x))
        = List.map pyLower (stripList x) := by
      rw [List.map_map]
      exact List.map_congr_left (fun c _ => by
        simp only [Function.comp_apply]
        exact pyLower_idem c)
    unfold _normalize_name normalizeWith
    rw [stripList_map_compat pyLower_space, key]
